import Mathlib

/-!
# golox scanner

A shallow embedding of `scanner/token.go` and `scanner/scanner.go`.

* Strings (`strings.Builder`, lexemes, messages) are lists of characters.
* `LineNumber` and `ColumnNumber` are `uint32`: naturals reduced modulo `2^32`.
* The `bufio.Reader` is the list of runes it still has to deliver, together with
  the rune that `UnreadRune` may push back.
* Every `goto`/`for` loop of the source is a function by recursion on a step
  budget; `Scan` and the sub-scanners start their loops with a budget that is
  larger than the number of pending runes, which is never exhausted.
-/

namespace Golox

/-! ## token.go -/

/-- The constants of `TokenType`, in the order of the `iota` block. -/
inductive TokenType
  | LeftParen | RightParen | LeftBrace | RightBrace | Comma | Dot | Minus | Plus
  | Semicolon | Slash | Star
  | Bang | BangEqual | Equal | EqualEqual | Greater | GreaterEqual | Less | LessEqual
  | Comment
  | Identifier | String | Number
  | And | Class | Else | Fun | For | If | Nil | Or | Print | Return | Super | This
  | True | False | Var | While
  | Eof
  deriving DecidableEq, Repr

/-- Modulus of `LineNumber` and `ColumnNumber` (`uint32`). -/
def u32 : Nat := 2 ^ 32

/-- The dynamic content of `Token.Value` (`interface{}`): a `string` or a `float64`,
the latter given by its IEEE 754 bit pattern (`math.Float64bits`). -/
inductive Value
  | str (s : List Char)
  | num (bits : Nat)
  deriving DecidableEq, Repr

/-- The struct `Token` (`Typ` is its field `Type`); `Value = none` is the nil interface. -/
structure Token where
  Typ : TokenType
  Lexeme : List Char
  Line : Nat
  Value : Option Value
  deriving DecidableEq, Repr

/-- The zero value `Token{}`. -/
def Token.zero : Token := ⟨.LeftParen, [], 0, none⟩

/-! ## The character source -/

/-- The constant `unicode.ReplacementChar`. -/
def ReplacementChar : Char := Char.ofNat 0xFFFD

/-- The constant `unicode.MaxLatin1`. -/
def MaxLatin1 : Char := Char.ofNat 0xFF

/-- The double quote character. -/
def quote : Char := Char.ofNat 34

/-- What one `ReadRune` delivers: a well-encoded code point, or one byte that is
not the start of a valid UTF-8 sequence. -/
inductive Item
  | valid (c : Char)
  | invalid
  deriving DecidableEq, Repr

/-- The rune `ReadRune` returns for an item. -/
def Item.r : Item → Char
  | .valid c => c
  | .invalid => ReplacementChar

/-- The size in bytes `ReadRune` returns for an item. -/
def Item.sz : Item → Nat
  | .valid c => c.utf8Size
  | .invalid => 1

/-- The struct `ScannerError`. -/
structure ScannerError where
  Line : Nat
  Column : Nat
  Message : List Char
  deriving DecidableEq, Repr

/-- The `error` values that occur: `io.EOF`, `bufio.ErrInvalidUnreadRune` and
`ScannerError`. -/
inductive Error
  | EOF
  | ErrInvalidUnreadRune
  | Scanner (e : ScannerError)
  deriving DecidableEq, Repr

/-- The `bufio.Reader`: the runes not yet read and the rune that can be unread
(`lastRune = none` stands for `lastRuneSize = -1`). -/
structure Reader where
  buf : List Item
  lastRune : Option Item
  deriving DecidableEq, Repr

/-- The method `bufio.Reader.ReadRune`: rune, size and error, and the reader after
the call. -/
def Reader.ReadRune (b : Reader) : (Char × Nat × Option Error) × Reader :=
  match b.buf with
  | [] => ((Char.ofNat 0, 0, some .EOF), ⟨[], none⟩)
  | x :: xs => ((x.r, x.sz, none), ⟨xs, some x⟩)

/-- The method `bufio.Reader.UnreadRune`: it fails unless the last operation was a
successful `ReadRune`. -/
def Reader.UnreadRune (b : Reader) : Option Error × Reader :=
  match b.lastRune with
  | none => (some .ErrInvalidUnreadRune, b)
  | some x => (none, ⟨x :: b.buf, none⟩)

/-! ## Unicode classes and `strconv.ParseFloat` -/

/-- The range tables `unicode.Digit` and `unicode.Letter` above Latin-1, as
membership tests. -/
structure UnicodeTables where
  Digit : Char → Bool
  Letter : Char → Bool

/-- The tables with no entry above Latin-1. -/
def latin1Only : UnicodeTables := ⟨fun _ => false, fun _ => false⟩

/-- The function `unicode.IsDigit`. -/
def IsDigit (U : UnicodeTables) (r : Char) : Bool :=
  if r ≤ MaxLatin1 then decide ('0' ≤ r ∧ r ≤ '9') else U.Digit r

/-- The letters of Latin-1 (the `pLmask` entries of `unicode.properties`). -/
def latin1Letter (r : Char) : Bool :=
  decide (('A' ≤ r ∧ r ≤ 'Z') ∨ ('a' ≤ r ∧ r ≤ 'z') ∨ r = Char.ofNat 0xAA ∨ r = Char.ofNat 0xB5
    ∨ r = Char.ofNat 0xBA ∨ (Char.ofNat 0xC0 ≤ r ∧ r ≤ Char.ofNat 0xD6)
    ∨ (Char.ofNat 0xD8 ≤ r ∧ r ≤ Char.ofNat 0xF6) ∨ (Char.ofNat 0xF8 ≤ r ∧ r ≤ Char.ofNat 0xFF))

/-- The function `unicode.IsLetter`. -/
def IsLetter (U : UnicodeTables) (r : Char) : Bool :=
  if r ≤ MaxLatin1 then latin1Letter r else U.Letter r

/-- The errors of `strconv.ParseFloat`. -/
inductive NumError
  | ErrSyntax
  | ErrRange
  deriving DecidableEq, Repr

/-- Value of an ASCII decimal digit. -/
def digitVal (c : Char) : Option Nat :=
  if '0' ≤ c ∧ c ≤ '9' then some (c.toNat - 48) else none

/-- The decimal fragment of `strconv`'s `readFloat`: digits with at most one `.`
and at least one digit. The result `(n, k)` stands for `n / 10^k`. Any other
character is a syntax error (`none`). -/
def readDecimal : List Char → Nat → Nat → Bool → Bool → Option (Nat × Nat)
  | [], n, k, _, sawdigits => if sawdigits then some (n, k) else none
  | c :: cs, n, k, sawdot, sawdigits =>
    if c = '.' then
      if sawdot then none else readDecimal cs n k true sawdigits
    else
      match digitVal c with
      | some d => readDecimal cs (10 * n + d) (if sawdot then k + 1 else k) sawdot true
      | none => none

/-- Number of binary digits of a natural number (`budget` bounds the recursion). -/
def bitLen : Nat → Nat → Nat
  | 0, _ => 0
  | budget + 1, n => if n = 0 then 0 else bitLen budget (n / 2) + 1

/-- The pair `(a, b)` with `a / b = n / (d * 2^e)`. -/
def scaled (n d : Nat) (e : Int) : Nat × Nat :=
  if 0 ≤ e then (n, d * 2 ^ e.toNat) else (n * 2 ^ (-e).toNat, d)

/-- The `float64` nearest to `n / 10^k` (round to nearest, ties to even), as its
bit pattern; `ErrRange` when the rounded value is not finite. -/
def roundFloat64 (n k : Nat) : Except NumError Nat :=
  if n = 0 then .ok 0 else
  let d := 10 ^ k
  let e0 : Int := (bitLen n n : Int) - (bitLen d d : Int) - 52
  let e1 : Int := if (scaled n d e0).1 / (scaled n d e0).2 < 2 ^ 52 then e0 - 1 else e0
  let e2 : Int := max e1 (-1074)
  let a := (scaled n d e2).1
  let b := (scaled n d e2).2
  let q := a / b
  let r := a % b
  let m := if 2 * r < b then q else if b < 2 * r then q + 1 else if q % 2 = 0 then q else q + 1
  let m1 := if m = 2 ^ 53 then 2 ^ 52 else m
  let e3 : Int := if m = 2 ^ 53 then e2 + 1 else e2
  if 971 < e3 then .error .ErrRange
  else if m1 < 2 ^ 52 then .ok m1
  else .ok ((e3 + 1075).toNat * 2 ^ 52 + (m1 - 2 ^ 52))

/-- The function `strconv.ParseFloat(s, 64)` of the Go library, on the texts the scanner
passes to it: a rune accepted by `unicode.IsDigit`, followed by such runes and at most one
`.`. Of these texts the library accepts exactly the ones made of ASCII digits (`digits`,
`digits.` and `digits.digits`), returns the nearest `float64`, and reports `ErrRange` when
that value is not finite; the others are `ErrSyntax`. Signs, exponents, hexadecimal
numbers, underscores, infinities and NaN never occur in such a text and are not modelled. -/
def ParseFloat (s : List Char) : Except NumError Nat :=
  match readDecimal s 0 0 false false with
  | none => .error .ErrSyntax
  | some (n, k) => roundFloat64 n k

/-! ## scanner.go -/

/-- The map `matchLexemeToKeyword`. -/
def matchLexemeToKeyword : List (List Char × TokenType) :=
  [ (['a', 'n', 'd'], .And),
    (['c', 'l', 'a', 's', 's'], .Class),
    (['e', 'l', 's', 'e'], .Else),
    (['f', 'u', 'n'], .Fun),
    (['f', 'o', 'r'], .For),
    (['i', 'f'], .If),
    (['n', 'i', 'l'], .Nil),
    (['o', 'r'], .Or),
    (['p', 'r', 'i', 'n', 't'], .Print),
    (['r', 'e', 't', 'u', 'r', 'n'], .Return),
    (['s', 'u', 'p', 'e', 'r'], .Super),
    (['t', 'h', 'i', 's'], .This),
    (['t', 'r', 'u', 'e'], .True),
    (['f', 'a', 'l', 's', 'e'], .False),
    (['v', 'a', 'r'], .Var),
    (['w', 'h', 'i', 'l', 'e'], .While) ]

/-- The function `isAllowedInId`. -/
def isAllowedInId (U : UnicodeTables) (r : Char) : Bool :=
  IsDigit U r || IsLetter U r || decide (r = '_')

/-- The struct `Scanner`. -/
structure Scanner where
  input : Reader
  Line : Nat
  Column : Nat
  deriving DecidableEq, Repr

/-- The function `NewScanner`, on a reader that has read nothing yet. -/
def NewScanner (input : List Item) : Scanner := ⟨⟨input, none⟩, 1, 0⟩

/-- What a call leaves behind: a returned pair `(*Token, error)` with the scanner
after the call, a panic (of `matchNumberLiteral`), or an exhausted step budget. -/
inductive Outcome
  | ret (tok : Option Token) (err : Option Error) (sc : Scanner)
  | panic (e : NumError) (sc : Scanner)
  | outOfFuel
  deriving DecidableEq, Repr

namespace Scanner

/-- The method `advance`. -/
def advance (sc : Scanner) : (Char × Option Error) × Scanner :=
  let res := sc.input.ReadRune
  let r := res.1.1
  let sz := res.1.2.1
  let e := res.1.2.2
  if e ≠ none ∨ (sz = 1 ∧ r = ReplacementChar) then
    ((ReplacementChar, e), { sc with input := res.2 })
  else
    ((r, none), { sc with input := res.2, Column := (sc.Column + 1) % u32 })

/-- The method `tok`. -/
def tok (sc : Scanner) (tt : TokenType) : Token := ⟨tt, [], sc.Line, none⟩

/-- The method `identifier`. -/
def identifier (sc : Scanner) (id : List Char) : Token := ⟨.Identifier, id, sc.Line, none⟩

/-- The method `comment`. -/
def comment (sc : Scanner) (text : List Char) : Token := ⟨.Comment, text, sc.Line, none⟩

/-- The method `literal`. -/
def literal (sc : Scanner) (tt : TokenType) (value : Value) : Token :=
  ⟨tt, [], sc.Line, some value⟩

/-- The method `makeScannerError`, with the formatted message. -/
def makeScannerError (sc : Scanner) (msg : List Char) : Error :=
  .Scanner ⟨sc.Line, sc.Column, msg⟩

/-- The method `unexpectedSymbol`. -/
def unexpectedSymbol (sc : Scanner) (r : Char) : Error :=
  sc.makeScannerError ("unexpected symbol: ".toList ++ [r])

/-- The method `unread`. -/
def unread (sc : Scanner) : Option Error × Scanner :=
  let res := sc.input.UnreadRune
  if res.1 ≠ none then (res.1, { sc with input := res.2 })
  else (none, { sc with input := res.2, Column := (sc.Column + u32 - 1) % u32 })

/-- The method `peek`. -/
def peek (sc : Scanner) : (Char × Option Error) × Scanner :=
  let a := sc.advance
  if a.1.2 ≠ none then ((ReplacementChar, a.1.2), a.2)
  else
    let u := a.2.unread
    if u.1 ≠ none then ((ReplacementChar, u.1), u.2)
    else ((a.1.1, none), u.2)

/-- The method `matchBang`. -/
def matchBang (sc : Scanner) : Outcome :=
  let p := sc.peek
  if p.1.2 ≠ none then .ret none p.1.2 p.2
  else if p.1.1 = '=' then
    let a := p.2.advance
    if a.1.2 ≠ none then .ret none a.1.2 a.2
    else .ret (some (a.2.tok .BangEqual)) none a.2
  else .ret (some (p.2.tok .Bang)) none p.2

/-- The method `matchEqual`. -/
def matchEqual (sc : Scanner) : Outcome :=
  let p := sc.peek
  if p.1.2 ≠ none then .ret none p.1.2 p.2
  else
    let token := if p.1.1 = '=' then p.2.tok .EqualEqual
      else if p.1.1 = '<' then p.2.tok .LessEqual
      else p.2.tok .Equal
    let consumed := if p.1.1 = '=' then true else if p.1.1 = '<' then true else false
    if consumed then
      let a := p.2.advance
      if a.1.2 ≠ none then .ret none a.1.2 a.2
      else .ret (some token) none a.2
    else .ret (some token) none p.2

/-- The method `matchLess`. -/
def matchLess (sc : Scanner) : Outcome :=
  let p := sc.peek
  if p.1.2 ≠ none then .ret none p.1.2 p.2
  else if p.1.1 = '=' then
    let a := p.2.advance
    if a.1.2 ≠ none then .ret none a.1.2 a.2
    else .ret (some (a.2.tok .LessEqual)) none a.2
  else .ret (some (p.2.tok .Less)) none p.2

/-- The method `matchGreater`. -/
def matchGreater (sc : Scanner) : Outcome :=
  let p := sc.peek
  if p.1.2 ≠ none then .ret none p.1.2 p.2
  else if p.1.1 = '=' then
    let a := p.2.advance
    if a.1.2 ≠ none then .ret none a.1.2 a.2
    else .ret (some (a.2.tok .GreaterEqual)) none a.2
  else .ret (some (p.2.tok .Greater)) none p.2

/-- The loop of `matchStringLiteral` and the code after it: each round starts with
the `advance` of the `for` statement. -/
def stringLoop : Nat → Scanner → List Char → Outcome
  | 0, _, _ => .outOfFuel
  | fuel + 1, sc, sb =>
    let a := sc.advance
    let c := a.1.1
    let e := a.1.2
    if e = none ∧ c ≠ quote then
      let sc1 := if c = '\n' then { a.2 with Line := (a.2.Line + 1) % u32 } else a.2
      stringLoop fuel sc1 (sb ++ [c])
    else if e ≠ none ∧ e ≠ some .EOF then .ret none e a.2
    else if e = some .EOF then
      .ret none (some (a.2.makeScannerError "unterminated string".toList)) a.2
    else .ret (some (a.2.literal .String (.str sb))) none a.2

/-- The method `matchStringLiteral`. -/
def matchStringLiteral (sc : Scanner) : Outcome :=
  stringLoop (sc.input.buf.length + 1) sc []

/-- The comment loop of `matchSlash` and the return after it. -/
def commentLoop : Nat → Scanner → List Char → Outcome
  | 0, _, _ => .outOfFuel
  | fuel + 1, sc, sb =>
    let a := sc.advance
    let c := a.1.1
    let e := a.1.2
    if e ≠ none ∧ e ≠ some .EOF then .ret none e a.2
    else if e = some .EOF then .ret (some (a.2.comment sb)) none a.2
    else if c = '\n' then
      let u := a.2.unread
      .ret (some (u.2.comment sb)) none u.2
    else commentLoop fuel a.2 (sb ++ [c])

/-- The method `matchSlash`. -/
def matchSlash (sc : Scanner) : Outcome :=
  let p := sc.peek
  if p.1.2 ≠ none then .ret none p.1.2 p.2
  else if p.1.1 = '/' then
    let a := p.2.advance
    commentLoop (a.2.input.buf.length + 1) a.2 []
  else .ret (some (p.2.tok .Slash)) none p.2

/-- The label `munch_numbers` of `matchNumberLiteral`: the `advance` and digit loop,
the jump back after the first `.`, and the code after the loop. -/
def munch_numbers (U : UnicodeTables) : Nat → Scanner → List Char → Bool → Outcome
  | 0, _, _, _ => .outOfFuel
  | fuel + 1, sc, sb, had_decimal_point =>
    let a := sc.advance
    let c := a.1.1
    let e := a.1.2
    if e = none ∧ IsDigit U c = true then munch_numbers U fuel a.2 (sb ++ [c]) had_decimal_point
    else if e ≠ none ∧ e ≠ some .EOF then .ret none e a.2
    else if c = '.' ∧ had_decimal_point = false then
      munch_numbers U fuel a.2 (sb ++ ['.']) true
    else
      let u := a.2.unread
      match ParseFloat sb with
      | .error err => .panic err u.2
      | .ok f => .ret (some (u.2.literal .Number (.num f))) none u.2

/-- The method `matchNumberLiteral`. -/
def matchNumberLiteral (U : UnicodeTables) (sc : Scanner) (first : Char) : Outcome :=
  munch_numbers U (sc.input.buf.length + 1) sc [first] false

/-- The loop of `matchIdOrKeyword` and the code after it: each round starts with
the `peek` of the `for` statement. -/
def idLoop (U : UnicodeTables) : Nat → Scanner → List Char → Outcome
  | 0, _, _ => .outOfFuel
  | fuel + 1, sc, sb =>
    let p := sc.peek
    let c := p.1.1
    let e := p.1.2
    if e = none ∧ isAllowedInId U c = true then idLoop U fuel p.2.advance.2 (sb ++ [c])
    else if e ≠ none ∧ e ≠ some .EOF then .ret none e p.2
    else
      match matchLexemeToKeyword.lookup sb with
      | some kw => .ret (some (p.2.tok kw)) none p.2
      | none => .ret (some (p.2.identifier sb)) none p.2

/-- The method `matchIdOrKeyword`. -/
def matchIdOrKeyword (U : UnicodeTables) (sc : Scanner) (first : Char) : Outcome :=
  idLoop U (sc.input.buf.length + 1) sc [first]

/-- The body of `Scan` from the label `advance`. -/
def scanLoop (U : UnicodeTables) : Nat → Scanner → Outcome
  | 0, _ => .outOfFuel
  | fuel + 1, sc0 =>
    let a := sc0.advance
    let c := a.1.1
    let e := a.1.2
    let sc := a.2
    if e ≠ none then .ret (some Token.zero) e sc
    else if c = '(' then .ret (some (sc.tok .LeftParen)) none sc
    else if c = ')' then .ret (some (sc.tok .RightParen)) none sc
    else if c = '{' then .ret (some (sc.tok .LeftBrace)) none sc
    else if c = '}' then .ret (some (sc.tok .RightBrace)) none sc
    else if c = ',' then .ret (some (sc.tok .Comma)) none sc
    else if c = '.' then .ret (some (sc.tok .Dot)) none sc
    else if c = '-' then .ret (some (sc.tok .Minus)) none sc
    else if c = '+' then .ret (some (sc.tok .Plus)) none sc
    else if c = ';' then .ret (some (sc.tok .Semicolon)) none sc
    else if c = '*' then .ret (some (sc.tok .Star)) none sc
    else if c = '/' then sc.matchSlash
    else if c = '!' then sc.matchBang
    else if c = '=' then sc.matchEqual
    else if c = '<' then sc.matchLess
    else if c = '>' then sc.matchGreater
    else if c = quote then sc.matchStringLiteral
    else if c = '\n' then scanLoop U fuel { sc with Line := (sc.Line + 1) % u32, Column := 1 }
    else if c = '\r' then scanLoop U fuel sc
    else if c = '\t' then scanLoop U fuel sc
    else if c = ' ' then scanLoop U fuel sc
    else if IsDigit U c = true then sc.matchNumberLiteral U c
    else if IsLetter U c = true then sc.matchIdOrKeyword U c
    else .ret none (some (sc.unexpectedSymbol c)) sc

/-- The method `Scan`. -/
def Scan (U : UnicodeTables) (sc : Scanner) : Outcome :=
  scanLoop U (sc.input.buf.length + 1) sc

end Scanner

/-! ## Notions used to state the properties -/

/-- Input text as the runes a reader over its UTF-8 encoding delivers. -/
def runes (s : List Char) : List Item := s.map Item.valid

/-- Number of newline runes in a stretch of input. -/
def newlines (xs : List Item) : Nat := xs.count (.valid '\n')

/-- Column after an `advance` that read the item `x`. -/
def colAdvance (x : Item) (col : Nat) : Nat :=
  match x with
  | .valid _ => (col + 1) % u32
  | .invalid => col

/-- Column after a successful `unread`. -/
def colUnread (col : Nat) : Nat := (col + u32 - 1) % u32

/-- Column after the items `xs` were read by successive calls of `advance`. -/
def colAfter (col : Nat) (xs : List Item) : Nat := xs.foldl (fun c x => colAdvance x c) col

/-- Line after the items `xs` were read by a loop that counts newlines. -/
def lineAfter (line : Nat) (xs : List Item) : Nat :=
  xs.foldl (fun ln x => if x = .valid '\n' then (ln + 1) % u32 else ln) line

/-- The scanner a `peek` (or a read followed by `unread`) leaves at the pending input `rem`. -/
def afterPeek (rem : List Item) (line col : Nat) : Scanner :=
  ⟨⟨rem, none⟩, line, match rem with
    | [] => col
    | x :: _ => colUnread (colAdvance x col)⟩

/-- The code of `matchNumberLiteral` after its loop, on the accumulated text. -/
def numberResult (text : List Char) (sc : Scanner) : Outcome :=
  match ParseFloat text with
  | .error err => .panic err sc
  | .ok f => .ret (some (sc.literal .Number (.num f))) none sc

/-- The code of `matchIdOrKeyword` after its loop, on the accumulated text. -/
def idResult (text : List Char) (sc : Scanner) : Outcome :=
  match matchLexemeToKeyword.lookup text with
  | some kw => .ret (some (sc.tok kw)) none sc
  | none => .ret (some (sc.identifier text)) none sc

/-- Column after the identifier loop took the items `xs` (a `peek` and an `advance` each). -/
def colAfterPeeked (col : Nat) (xs : List Item) : Nat :=
  xs.foldl (fun c x => colAdvance x (colUnread (colAdvance x c))) col

/-- The longest prefix of the form digits, optionally one `.` and further digits, when a
decimal point may still be taken (`had = false`) or not, and the input after it. -/
def numberSplit (U : UnicodeTables) (had : Bool) (buf : List Item) : List Item × List Item :=
  let ds := buf.takeWhile (fun x => IsDigit U x.r)
  match buf.dropWhile (fun x => IsDigit U x.r) with
  | [] => (ds, [])
  | x :: rem =>
    if x = .valid '.' ∧ had = false then
      (ds ++ x :: rem.takeWhile (fun x => IsDigit U x.r), rem.dropWhile (fun x => IsDigit U x.r))
    else (ds, x :: rem)

/-- The four runes the loop of `Scan` skips. -/
def isBlank (x : Item) : Bool :=
  decide (x = .valid '\n' ∨ x = .valid '\r' ∨ x = .valid '\t' ∨ x = .valid ' ')

/-- The `switch` of `Scan` on a rune that is not skipped, with the scanner after the
`advance` that read it. -/
def scanDispatch (U : UnicodeTables) (c : Char) (sc : Scanner) : Outcome :=
  if c = '(' then .ret (some (sc.tok .LeftParen)) none sc
  else if c = ')' then .ret (some (sc.tok .RightParen)) none sc
  else if c = '{' then .ret (some (sc.tok .LeftBrace)) none sc
  else if c = '}' then .ret (some (sc.tok .RightBrace)) none sc
  else if c = ',' then .ret (some (sc.tok .Comma)) none sc
  else if c = '.' then .ret (some (sc.tok .Dot)) none sc
  else if c = '-' then .ret (some (sc.tok .Minus)) none sc
  else if c = '+' then .ret (some (sc.tok .Plus)) none sc
  else if c = ';' then .ret (some (sc.tok .Semicolon)) none sc
  else if c = '*' then .ret (some (sc.tok .Star)) none sc
  else if c = '/' then sc.matchSlash
  else if c = '!' then sc.matchBang
  else if c = '=' then sc.matchEqual
  else if c = '<' then sc.matchLess
  else if c = '>' then sc.matchGreater
  else if c = quote then sc.matchStringLiteral
  else if IsDigit U c = true then sc.matchNumberLiteral U c
  else if IsLetter U c = true then sc.matchIdOrKeyword U c
  else .ret none (some (sc.unexpectedSymbol c)) sc

/-- The scanner a call leaves behind, when it returned or panicked. -/
def Outcome.scanner? : Outcome → Option Scanner
  | .ret _ _ sc => some sc
  | .panic _ sc => some sc
  | .outOfFuel => none

/-- The token of a call that returned a token and no error. -/
def Outcome.token? : Outcome → Option Token
  | .ret (some t) none _ => some t
  | _ => none

/-- Number of newlines in the text of a string literal token (`0` for other tokens). -/
def Token.valueNewlines (t : Token) : Nat :=
  match t.Value with
  | some (.str s) => s.count '\n'
  | _ => 0

/-- What a sub-scanner does to the cursor: from the pending input `buf` on line `line` it
consumes a prefix, counts the newlines of that prefix into `Line`, and a returned token carries
the final `Line` and holds as many newlines as were consumed, none unless it is a `String`. -/
def Effect (buf : List Item) (line : Nat) (o : Outcome) : Prop :=
  ∃ consumed sc', o.scanner? = some sc' ∧ buf = consumed ++ sc'.input.buf
    ∧ sc'.Line = lineAfter line consumed
    ∧ ∀ t, o.token? = some t → t.Line = sc'.Line ∧ t.valueNewlines = newlines consumed
        ∧ (t.Typ ≠ .String → t.valueNewlines = 0)

/-- The scanner after `n` successive calls of `Scan`, as the driver loop of `main` makes
them; `none` once a call has panicked. -/
def afterCalls (U : UnicodeTables) : Nat → Scanner → Option Scanner
  | 0, sc => some sc
  | n + 1, sc =>
    match Scanner.Scan U sc with
    | .ret _ _ sc' => afterCalls U n sc'
    | _ => none

/-- Index in `input` of the first rune of the token that the next `Scan` of `sc` returns:
the position of `sc` plus the whitespace the call skips. -/
def tokenStart (input : List Item) (sc : Scanner) : Nat :=
  input.length - (sc.input.buf.dropWhile isBlank).length

/-- The tables whose only digit above Latin-1 is `d`. -/
def tablesWithDigit (d : Char) : UnicodeTables := ⟨fun c => decide (c = d), fun _ => false⟩

/-- Column after the loop of `Scan` skipped the blank items `ws`. -/
def colBlanks (col : Nat) (ws : List Item) : Nat :=
  ws.foldl (fun c x => if x = .valid '\n' then 1 else colAdvance x c) col

/-- The single-character punctuation of `Scan` with its kinds. -/
def punctuation : List (Char × TokenType) :=
  [ ('(', .LeftParen), (')', .RightParen), ('{', .LeftBrace), ('}', .RightBrace),
    (',', .Comma), ('.', .Dot), ('-', .Minus), ('+', .Plus), (';', .Semicolon), ('*', .Star) ]

/-- A rune for which the `switch` of `Scan` has no case and which is neither digit nor
letter: not punctuation, not the start of an operator, not the quote, not whitespace. -/
def unrecognized (U : UnicodeTables) (c : Char) : Prop :=
  punctuation.lookup c = none ∧ c ≠ '/' ∧ c ≠ '!' ∧ c ≠ '=' ∧ c ≠ '<' ∧ c ≠ '>' ∧ c ≠ quote
    ∧ c ≠ '\n' ∧ c ≠ '\r' ∧ c ≠ '\t' ∧ c ≠ ' '
    ∧ IsDigit U c = false ∧ IsLetter U c = false

/-- The keys of the keyword table. -/
def keywords : List (List Char) := matchLexemeToKeyword.map Prod.fst

/-- The fields of a token that fit its kind: a text value for `String`, a `float64` value
for `Number`, no value for any other kind, and a lexeme only for `Identifier` and `Comment`. -/
def Token.wellFormed (t : Token) : Prop :=
  (t.Typ = .String → ∃ s, t.Value = some (.str s))
    ∧ (t.Typ = .Number → ∃ f, t.Value = some (.num f))
    ∧ (t.Typ ≠ .String → t.Typ ≠ .Number → t.Value = none)
    ∧ (t.Lexeme ≠ [] → t.Typ = .Identifier ∨ t.Typ = .Comment)

/-- An outcome that is no lexical error: a well-formed token, the end of input met by a
sub-scanner, or the panic of the number sub-scanner. -/
def Regular (o : Outcome) : Prop :=
  match o with
  | .ret (some t) none _ => t.wellFormed
  | .ret none (some .EOF) _ => True
  | .panic _ _ => True
  | _ => False

/-- The map `tokenTypeTostring`. -/
def tokenTypeTostring : List (TokenType × List Char) :=
  [ (.LeftParen, "LeftParen".toList),
    (.RightParen, "RightParen".toList),
    (.LeftBrace, "LeftBrace".toList),
    (.RightBrace, "RightBrace".toList),
    (.Comma, "Comma".toList),
    (.Dot, "Dot".toList),
    (.Minus, "Minus".toList),
    (.Plus, "Plus".toList),
    (.Semicolon, "Semicolon".toList),
    (.Slash, "Slash".toList),
    (.Star, "Star".toList),
    (.Bang, "Bang".toList),
    (.BangEqual, "BangEqual".toList),
    (.Equal, "Equal".toList),
    (.EqualEqual, "EqualEqual".toList),
    (.Greater, "Greater".toList),
    (.GreaterEqual, "GreaterEqual".toList),
    (.Less, "Less".toList),
    (.LessEqual, "LessEqual".toList),
    (.Comment, "Comment".toList),
    (.Identifier, "Identifier".toList),
    (.String, "Literal value".toList),
    (.Number, "Literal value".toList),
    (.And, "And".toList),
    (.Class, "Class".toList),
    (.Else, "Else".toList),
    (.Fun, "Fun".toList),
    (.For, "For".toList),
    (.If, "If".toList),
    (.Nil, "Nil".toList),
    (.Or, "Or".toList),
    (.Print, "Print".toList),
    (.Return, "Return".toList),
    (.Super, "Super".toList),
    (.This, "This".toList),
    (.True, "True".toList),
    (.Var, "Var".toList),
    (.While, "While".toList),
    (.Eof, "Eof".toList) ]

/-- How a call of `Token.String` ends: with the returned string, or in `panic` with its
message. -/
inductive Display
  | ok (s : List Char)
  | panic (msg : List Char)
  deriving DecidableEq, Repr

/-- The method `Token.String`. The number of a kind (`%d` of a `TokenType`) is its place in
the `iota` block, and `fmtFloat` is the `%f` verb of `fmt` on a `float64`. -/
def Token.String (fmtFloat : Nat → List Char) (t : Token) : Display :=
  match tokenTypeTostring.lookup t.Typ with
  | none =>
    .panic ("unable to match TokenType to name: ".toList ++ (Nat.repr t.Typ.toCtorIdx).toList)
  | some ts =>
    let str := "token Type: ".toList ++ ts ++ " Line: ".toList ++ (Nat.repr t.Line).toList
      ++ " ".toList
    match t.Typ with
    | .Comment => .ok (str ++ "comment text: ".toList ++ [quote] ++ t.Lexeme ++ [quote])
    | .String =>
      match t.Value with
      | none => .panic "token type is a value literal but no value provided".toList
      | some (.str val) => .ok (str ++ "string literal: ".toList ++ [quote] ++ val ++ [quote])
      | some (.num _) => .panic "token type is String but value is of wrong type".toList
    | .Number =>
      match t.Value with
      | none => .panic "token type is a value literal but no value provided".toList
      | some (.num val) =>
        .ok (str ++ "number literal: ".toList ++ [quote] ++ fmtFloat val ++ [quote])
      | some (.str _) => .panic "token type is String but value is of wrong type".toList
    | .Identifier => .ok (str ++ "identifier: ".toList ++ [quote] ++ t.Lexeme ++ [quote])
    | _ => .ok str

/-- Whether a call of `Token.String` returned. -/
def Display.isOk : Display → Bool
  | .ok _ => true
  | .panic _ => false

/-- The driver loop of `main`, run for at most `k` calls of `Scan`: whether one of these
calls returned `io.EOF`. The loop goes on after a token and after any other error, and a
panic ends it. -/
def signalsEOF (U : UnicodeTables) : Nat → Scanner → Bool
  | 0, _ => false
  | k + 1, sc =>
    match Scanner.Scan U sc with
    | .ret _ (some .EOF) _ => true
    | .ret _ _ sc' => signalsEOF U k sc'
    | _ => false

/-! ## The cursor primitives -/

theorem not_short_replacement (c : Char) : ¬ (c.utf8Size = 1 ∧ c = ReplacementChar) := by
  rintro ⟨h1, h2⟩
  subst h2
  exact absurd h1 (by decide)

theorem r_eq_iff (d : Item) (c : Char) (hc : c ≠ ReplacementChar) : d.r = c ↔ d = .valid c := by
  cases d with
  | valid x => simp [Item.r]
  | invalid => simp [Item.r]; exact fun h => hc h.symm

namespace Scanner

theorem advance_nil (l : Option Item) (line col : Nat) :
    advance ⟨⟨[], l⟩, line, col⟩ = ((ReplacementChar, some .EOF), ⟨⟨[], none⟩, line, col⟩) := by
  simp [advance, Reader.ReadRune]

theorem advance_cons (x : Item) (xs : List Item) (l : Option Item) (line col : Nat) :
    advance ⟨⟨x :: xs, l⟩, line, col⟩
      = ((x.r, none), ⟨⟨xs, some x⟩, line, colAdvance x col⟩) := by
  cases x with
  | valid c => simp [advance, Reader.ReadRune, Item.r, Item.sz, colAdvance, not_short_replacement]
  | invalid => simp [advance, Reader.ReadRune, Item.r, Item.sz, colAdvance]

theorem unread_some (x : Item) (xs : List Item) (line col : Nat) :
    unread ⟨⟨xs, some x⟩, line, col⟩ = (none, ⟨⟨x :: xs, none⟩, line, colUnread col⟩) := by
  simp [unread, Reader.UnreadRune, colUnread]

theorem unread_none (xs : List Item) (line col : Nat) :
    unread ⟨⟨xs, none⟩, line, col⟩
      = (some .ErrInvalidUnreadRune, ⟨⟨xs, none⟩, line, col⟩) := by
  simp [unread, Reader.UnreadRune]

theorem peek_nil (l : Option Item) (line col : Nat) :
    peek ⟨⟨[], l⟩, line, col⟩ = ((ReplacementChar, some .EOF), ⟨⟨[], none⟩, line, col⟩) := by
  simp [peek, advance_nil]

theorem peek_cons (x : Item) (xs : List Item) (l : Option Item) (line col : Nat) :
    peek ⟨⟨x :: xs, l⟩, line, col⟩
      = ((x.r, none), ⟨⟨x :: xs, none⟩, line, colUnread (colAdvance x col)⟩) := by
  simp [peek, advance_cons, unread_some]

end Scanner

/-! ## The loops of the sub-scanners -/

namespace Scanner

theorem lineAfter_cons (line : Nat) (x : Item) (xs : List Item) :
    lineAfter line (x :: xs) = lineAfter (if x = .valid '\n' then (line + 1) % u32 else line) xs := rfl

theorem colAfter_cons (col : Nat) (x : Item) (xs : List Item) :
    colAfter col (x :: xs) = colAfter (colAdvance x col) xs := rfl

theorem lineAfter_eq (xs : List Item) (line : Nat) (h : line < u32) :
    lineAfter line xs = (line + newlines xs) % u32 := by
  induction xs generalizing line with
  | nil => simp [lineAfter, newlines, Nat.mod_eq_of_lt h]
  | cons x xs ih =>
    rw [lineAfter_cons]
    by_cases hx : x = .valid '\n'
    · subst hx
      rw [if_pos rfl, ih _ (Nat.mod_lt _ (by decide))]
      simp only [newlines, List.count_cons_self]
      simp only [u32]
      omega
    · rw [if_neg hx, ih _ h]
      have : newlines (x :: xs) = newlines xs := by
        simp only [newlines]
        rw [List.count_cons_of_ne (Ne.symm hx)]
      rw [this]

/-- The string loop on a literal that is closed by a quote. -/
theorem stringLoop_closed (s rest : List Item) (hs : Item.valid quote ∉ s) :
    ∀ (n : Nat) (l : Option Item) (line col : Nat) (sb : List Char), s.length < n →
      stringLoop n ⟨⟨s ++ Item.valid quote :: rest, l⟩, line, col⟩ sb
        = .ret (some ⟨.String, [], lineAfter line s, some (.str (sb ++ s.map Item.r))⟩) none
            ⟨⟨rest, some (.valid quote)⟩, lineAfter line s,
              colAdvance (.valid quote) (colAfter col s)⟩ := by
  induction s with
  | nil =>
    intro n l line col sb hn
    obtain ⟨m, rfl⟩ : ∃ m, n = m + 1 := ⟨n - 1, by simp at hn; omega⟩
    simp [stringLoop, advance_cons, Item.r, lineAfter, colAfter, literal]
  | cons x xs ih =>
    intro n l line col sb hn
    obtain ⟨m, rfl⟩ : ∃ m, n = m + 1 := ⟨n - 1, by simp at hn; omega⟩
    have hx : x.r ≠ quote := by
      rw [Ne, r_eq_iff x quote (by decide)]
      intro h; exact hs (by simp [h])
    have hxs : Item.valid quote ∉ xs := fun h => hs (List.mem_cons_of_mem _ h)
    have hm : xs.length < m := by simp at hn; omega
    have hnl : (x.r = '\n') = (x = .valid '\n') := propext (r_eq_iff x '\n' (by decide))
    simp only [List.cons_append, stringLoop, advance_cons, hx, ne_eq, not_false_eq_true, and_self, if_true, hnl]
    by_cases h : x = .valid '\n'
    · simp only [h, if_true, lineAfter_cons, colAfter_cons, List.map_cons]
      rw [ih hxs m _ _ _ _ hm]
      simp [Item.r]
    · simp only [h, if_false, lineAfter_cons, colAfter_cons, List.map_cons]
      rw [ih hxs m _ _ _ _ hm]
      simp

/-- The string loop on input that ends before a closing quote. -/
theorem stringLoop_open (s : List Item) (hs : Item.valid quote ∉ s) :
    ∀ (n : Nat) (l : Option Item) (line col : Nat) (sb : List Char), s.length < n →
      stringLoop n ⟨⟨s, l⟩, line, col⟩ sb
        = .ret none (some (.Scanner ⟨lineAfter line s, colAfter col s, "unterminated string".toList⟩))
            ⟨⟨[], none⟩, lineAfter line s, colAfter col s⟩ := by
  induction s with
  | nil =>
    intro n l line col sb hn
    obtain ⟨m, rfl⟩ : ∃ m, n = m + 1 := ⟨n - 1, by simp at hn; omega⟩
    simp [stringLoop, advance_nil, lineAfter, colAfter, makeScannerError]
  | cons x xs ih =>
    intro n l line col sb hn
    obtain ⟨m, rfl⟩ : ∃ m, n = m + 1 := ⟨n - 1, by simp at hn; omega⟩
    have hx : x.r ≠ quote := by
      rw [Ne, r_eq_iff x quote (by decide)]
      intro h; exact hs (by simp [h])
    have hxs : Item.valid quote ∉ xs := fun h => hs (List.mem_cons_of_mem _ h)
    have hm : xs.length < m := by simp at hn; omega
    have hnl : (x.r = '\n') = (x = .valid '\n') := propext (r_eq_iff x '\n' (by decide))
    simp only [stringLoop, advance_cons, hx, ne_eq, not_false_eq_true, and_self, if_true, hnl]
    by_cases h : x = .valid '\n'
    · simp only [h, if_true, lineAfter_cons, colAfter_cons]
      rw [ih hxs m _ _ _ _ hm]
    · simp only [h, if_false, lineAfter_cons, colAfter_cons]
      rw [ih hxs m _ _ _ _ hm]

theorem colAfter_append (col : Nat) (xs ys : List Item) :
    colAfter col (xs ++ ys) = colAfter (colAfter col xs) ys := by
  simp [colAfter]

theorem commentLoop_newline (t rest : List Item) (ht : Item.valid '\n' ∉ t) :
    ∀ (n : Nat) (l : Option Item) (line col : Nat) (sb : List Char), t.length < n →
      commentLoop n ⟨⟨t ++ Item.valid '\n' :: rest, l⟩, line, col⟩ sb
        = .ret (some ⟨.Comment, sb ++ t.map Item.r, line, none⟩) none
            (afterPeek (Item.valid '\n' :: rest) line (colAfter col t)) := by
  induction t with
  | nil =>
    intro n l line col sb hn
    obtain ⟨m, rfl⟩ : ∃ m, n = m + 1 := ⟨n - 1, by simp at hn; omega⟩
    simp [commentLoop, advance_cons, unread_some, Item.r, colAfter, comment, afterPeek]
  | cons x xs ih =>
    intro n l line col sb hn
    obtain ⟨m, rfl⟩ : ∃ m, n = m + 1 := ⟨n - 1, by simp at hn; omega⟩
    have hx : x.r ≠ '\n' := by
      rw [Ne, r_eq_iff x '\n' (by decide)]
      intro h; exact ht (by simp [h])
    have hxs : Item.valid '\n' ∉ xs := fun h => ht (List.mem_cons_of_mem _ h)
    have hm : xs.length < m := by simp at hn; omega
    simp only [List.cons_append, commentLoop, advance_cons, hx, ne_eq, not_true_eq_false, false_and,
      if_false, reduceCtorEq, colAfter_cons, List.map_cons]
    rw [ih hxs m _ _ _ _ hm]
    simp

theorem commentLoop_eof (t : List Item) (ht : Item.valid '\n' ∉ t) :
    ∀ (n : Nat) (l : Option Item) (line col : Nat) (sb : List Char), t.length < n →
      commentLoop n ⟨⟨t, l⟩, line, col⟩ sb
        = .ret (some ⟨.Comment, sb ++ t.map Item.r, line, none⟩) none
            ⟨⟨[], none⟩, line, colAfter col t⟩ := by
  induction t with
  | nil =>
    intro n l line col sb hn
    obtain ⟨m, rfl⟩ : ∃ m, n = m + 1 := ⟨n - 1, by simp at hn; omega⟩
    simp [commentLoop, advance_nil, colAfter, comment]
  | cons x xs ih =>
    intro n l line col sb hn
    obtain ⟨m, rfl⟩ : ∃ m, n = m + 1 := ⟨n - 1, by simp at hn; omega⟩
    have hx : x.r ≠ '\n' := by
      rw [Ne, r_eq_iff x '\n' (by decide)]
      intro h; exact ht (by simp [h])
    have hxs : Item.valid '\n' ∉ xs := fun h => ht (List.mem_cons_of_mem _ h)
    have hm : xs.length < m := by simp at hn; omega
    simp only [commentLoop, advance_cons, hx, ne_eq, not_true_eq_false, false_and,
      if_false, reduceCtorEq, colAfter_cons, List.map_cons]
    rw [ih hxs m _ _ _ _ hm]
    simp

theorem isDigit_dot (U : UnicodeTables) : IsDigit U '.' = false := by
  have h : '.' ≤ MaxLatin1 := by decide
  simp [IsDigit, h]

theorem numberSplit_true (U : UnicodeTables) (buf : List Item) :
    numberSplit U true buf
      = (buf.takeWhile (fun x => IsDigit U x.r), buf.dropWhile (fun x => IsDigit U x.r)) := by
  unfold numberSplit
  cases h : List.dropWhile (fun x => IsDigit U x.r) buf <;> simp

theorem numberSplit_digit (U : UnicodeTables) (had : Bool) (x : Item) (xs : List Item)
    (hd : IsDigit U x.r = true) :
    numberSplit U had (x :: xs) = (x :: (numberSplit U had xs).1, (numberSplit U had xs).2) := by
  simp only [numberSplit, List.takeWhile_cons, List.dropWhile_cons, hd, if_true]
  cases h : List.dropWhile (fun x => IsDigit U x.r) xs with
  | nil => rfl
  | cons y ys => by_cases hy : y = .valid '.' ∧ had = false <;> simp [hy]

theorem numberSplit_dot (U : UnicodeTables) (xs : List Item) :
    numberSplit U false (.valid '.' :: xs)
      = (.valid '.' :: xs.takeWhile (fun x => IsDigit U x.r),
          xs.dropWhile (fun x => IsDigit U x.r)) := by
  simp [numberSplit, Item.r, isDigit_dot]

theorem numberSplit_stop (U : UnicodeTables) (had : Bool) (x : Item) (xs : List Item)
    (hd : ¬ IsDigit U x.r = true) (hp : ¬ (x = .valid '.' ∧ had = false)) :
    numberSplit U had (x :: xs) = ([], x :: xs) := by
  simp [numberSplit, hd, hp]

theorem munch_numbers_spec (U : UnicodeTables) (buf : List Item) :
    ∀ (had : Bool) (n : Nat) (l : Option Item) (line col : Nat) (sb : List Char), buf.length < n →
      munch_numbers U n ⟨⟨buf, l⟩, line, col⟩ sb had
        = numberResult (sb ++ (numberSplit U had buf).1.map Item.r)
            (afterPeek (numberSplit U had buf).2 line (colAfter col (numberSplit U had buf).1)) := by
  induction buf with
  | nil =>
    intro had n l line col sb hn
    obtain ⟨m, rfl⟩ : ∃ m, n = m + 1 := ⟨n - 1, by simp at hn; omega⟩
    have h1 : ¬ (ReplacementChar = '.') := by decide
    simp only [munch_numbers, advance_nil, unread_none, reduceCtorEq, false_and, if_false,
      ne_eq, not_true_eq_false, not_false_eq_true, and_false, h1]
    have h2 : numberSplit U had [] = ([], []) := rfl
    simp only [h2, List.map_nil, List.append_nil]
    rfl
  | cons x xs ih =>
    intro had n l line col sb hn
    obtain ⟨m, rfl⟩ : ∃ m, n = m + 1 := ⟨n - 1, by simp at hn; omega⟩
    have hm : xs.length < m := by simp at hn; omega
    by_cases hd : IsDigit U x.r = true
    · simp only [munch_numbers, advance_cons, hd, and_self, if_true]
      rw [ih had m _ _ _ _ hm, numberSplit_digit U had x xs hd]
      simp [colAfter_cons]
    · have hdot : (x.r = '.') = (x = .valid '.') := propext (r_eq_iff x '.' (by decide))
      by_cases hp : x = .valid '.' ∧ had = false
      · obtain ⟨rfl, rfl⟩ := hp
        simp only [munch_numbers, advance_cons, Item.r, isDigit_dot, and_false, if_false,
          ne_eq, not_true_eq_false, false_and, and_self, if_true, Bool.false_eq_true]
        rw [ih true m _ _ _ _ hm, numberSplit_true, numberSplit_dot]
        simp [colAfter_cons, Item.r]
      · simp only [munch_numbers, advance_cons, hd, and_false, if_false, ne_eq, not_true_eq_false,
          false_and, hdot, hp, unread_some, numberSplit_stop U had x xs hd hp, Bool.false_eq_true]
        simp only [List.map_nil, List.append_nil]
        rfl

theorem idLoop_spec (U : UnicodeTables) (buf : List Item) :
    ∀ (n : Nat) (l : Option Item) (line col : Nat) (sb : List Char), buf.length < n →
      idLoop U n ⟨⟨buf, l⟩, line, col⟩ sb
        = idResult (sb ++ (buf.takeWhile (fun x => isAllowedInId U x.r)).map Item.r)
            (afterPeek (buf.dropWhile (fun x => isAllowedInId U x.r)) line
              (colAfterPeeked col (buf.takeWhile (fun x => isAllowedInId U x.r)))) := by
  induction buf with
  | nil =>
    intro n l line col sb hn
    obtain ⟨m, rfl⟩ : ∃ m, n = m + 1 := ⟨n - 1, by simp at hn; omega⟩
    simp only [idLoop, peek_nil, reduceCtorEq, false_and, if_false, ne_eq, not_true_eq_false,
      not_false_eq_true, and_false]
    simp only [List.takeWhile_nil, List.dropWhile_nil, List.map_nil, List.append_nil]
    rfl
  | cons x xs ih =>
    intro n l line col sb hn
    obtain ⟨m, rfl⟩ : ∃ m, n = m + 1 := ⟨n - 1, by simp at hn; omega⟩
    have hm : xs.length < m := by simp at hn; omega
    by_cases hd : isAllowedInId U x.r = true
    · simp only [idLoop, peek_cons, advance_cons, hd, and_self, if_true]
      rw [ih m _ _ _ _ hm]
      simp [List.takeWhile_cons, List.dropWhile_cons, hd, colAfterPeeked]
    · simp only [idLoop, peek_cons, hd, and_false, if_false, ne_eq, not_true_eq_false, false_and]
      simp only [List.takeWhile_cons, List.dropWhile_cons, hd, if_false, List.map_nil,
        List.append_nil, Bool.false_eq_true]
      rfl

end Scanner

/-! ## The dispatch of `Scan` -/

namespace Scanner

theorem scan_slash (U : UnicodeTables) (xs : List Item) (l : Option Item) (line col : Nat) :
    Scan U ⟨⟨.valid '/' :: xs, l⟩, line, col⟩
      = matchSlash ⟨⟨xs, some (.valid '/')⟩, line, (col + 1) % u32⟩ := by
  simp [Scan, scanLoop, advance_cons, Item.r, colAdvance]

theorem scan_bang (U : UnicodeTables) (xs : List Item) (l : Option Item) (line col : Nat) :
    Scan U ⟨⟨.valid '!' :: xs, l⟩, line, col⟩
      = matchBang ⟨⟨xs, some (.valid '!')⟩, line, (col + 1) % u32⟩ := by
  simp [Scan, scanLoop, advance_cons, Item.r, colAdvance]

theorem scan_equal (U : UnicodeTables) (xs : List Item) (l : Option Item) (line col : Nat) :
    Scan U ⟨⟨.valid '=' :: xs, l⟩, line, col⟩
      = matchEqual ⟨⟨xs, some (.valid '=')⟩, line, (col + 1) % u32⟩ := by
  simp [Scan, scanLoop, advance_cons, Item.r, colAdvance]

theorem scan_less (U : UnicodeTables) (xs : List Item) (l : Option Item) (line col : Nat) :
    Scan U ⟨⟨.valid '<' :: xs, l⟩, line, col⟩
      = matchLess ⟨⟨xs, some (.valid '<')⟩, line, (col + 1) % u32⟩ := by
  simp [Scan, scanLoop, advance_cons, Item.r, colAdvance]

theorem scan_greater (U : UnicodeTables) (xs : List Item) (l : Option Item) (line col : Nat) :
    Scan U ⟨⟨.valid '>' :: xs, l⟩, line, col⟩
      = matchGreater ⟨⟨xs, some (.valid '>')⟩, line, (col + 1) % u32⟩ := by
  simp [Scan, scanLoop, advance_cons, Item.r, colAdvance]

theorem scan_quote (U : UnicodeTables) (xs : List Item) (l : Option Item) (line col : Nat) :
    Scan U ⟨⟨.valid quote :: xs, l⟩, line, col⟩
      = matchStringLiteral ⟨⟨xs, some (.valid quote)⟩, line, (col + 1) % u32⟩ := by
  simp [Scan, scanLoop, advance_cons, Item.r, colAdvance, quote]

theorem scan_newline (U : UnicodeTables) (xs : List Item) (l : Option Item) (line col : Nat) :
    Scan U ⟨⟨.valid '\n' :: xs, l⟩, line, col⟩
      = Scan U ⟨⟨xs, some (.valid '\n')⟩, (line + 1) % u32, 1⟩ := by
  simp [Scan, scanLoop, advance_cons, Item.r, colAdvance, quote]

theorem isBlank_false_iff (x : Item) :
    isBlank x = false ↔ x.r ≠ '\n' ∧ x.r ≠ '\r' ∧ x.r ≠ '\t' ∧ x.r ≠ ' ' := by
  simp only [isBlank, decide_eq_false_iff_not, not_or, ne_eq,
    r_eq_iff x '\n' (by decide), r_eq_iff x '\r' (by decide), r_eq_iff x '\t' (by decide),
    r_eq_iff x ' ' (by decide)]

theorem scanLoop_nil (U : UnicodeTables) (n : Nat) (l : Option Item) (line col : Nat) :
    scanLoop U (n + 1) ⟨⟨[], l⟩, line, col⟩
      = .ret (some Token.zero) (some .EOF) ⟨⟨[], none⟩, line, col⟩ := by
  simp [scanLoop, advance_nil]

theorem scanLoop_newline (U : UnicodeTables) (n : Nat) (xs : List Item) (l : Option Item)
    (line col : Nat) :
    scanLoop U (n + 1) ⟨⟨.valid '\n' :: xs, l⟩, line, col⟩
      = scanLoop U n ⟨⟨xs, some (.valid '\n')⟩, (line + 1) % u32, 1⟩ := by
  simp [scanLoop, advance_cons, Item.r, quote]

theorem scanLoop_blank (U : UnicodeTables) (n : Nat) (x : Item) (xs : List Item)
    (l : Option Item) (line col : Nat) (hb : isBlank x = true) (hx : x ≠ .valid '\n') :
    scanLoop U (n + 1) ⟨⟨x :: xs, l⟩, line, col⟩
      = scanLoop U n ⟨⟨xs, some x⟩, line, colAdvance x col⟩ := by
  simp only [isBlank, decide_eq_true_eq, hx, false_or] at hb
  rcases hb with rfl | rfl | rfl <;> simp [scanLoop, advance_cons, Item.r, quote]

theorem scanLoop_dispatch (U : UnicodeTables) (n : Nat) (x : Item) (xs : List Item)
    (l : Option Item) (line col : Nat) (hb : isBlank x = false) :
    scanLoop U (n + 1) ⟨⟨x :: xs, l⟩, line, col⟩
      = scanDispatch U x.r ⟨⟨xs, some x⟩, line, colAdvance x col⟩ := by
  obtain ⟨h1, h2, h3, h4⟩ := (isBlank_false_iff x).1 hb
  simp only [scanLoop, advance_cons, scanDispatch, h1, h2, h3, h4, ne_eq, not_true_eq_false,
    if_false]

theorem isLetter_special (U : UnicodeTables) (c : Char) (h : IsLetter U c = true) :
    c ≠ '(' ∧ c ≠ ')' ∧ c ≠ '{' ∧ c ≠ '}' ∧ c ≠ ',' ∧ c ≠ '.' ∧ c ≠ '-' ∧ c ≠ '+' ∧ c ≠ ';'
      ∧ c ≠ '*' ∧ c ≠ '/' ∧ c ≠ '!' ∧ c ≠ '=' ∧ c ≠ '<' ∧ c ≠ '>' ∧ c ≠ quote
      ∧ c ≠ '\n' ∧ c ≠ '\r' ∧ c ≠ '\t' ∧ c ≠ ' ' := by
  refine ⟨?_, ?_, ?_, ?_, ?_, ?_, ?_, ?_, ?_, ?_, ?_, ?_, ?_, ?_, ?_, ?_, ?_, ?_, ?_, ?_⟩ <;>
    (rintro rfl; exact absurd h (by simp [IsLetter, latin1Letter, MaxLatin1, quote]))


theorem isDigit_special (U : UnicodeTables) (c : Char) (h : IsDigit U c = true) :
    c ≠ '(' ∧ c ≠ ')' ∧ c ≠ '{' ∧ c ≠ '}' ∧ c ≠ ',' ∧ c ≠ '.' ∧ c ≠ '-' ∧ c ≠ '+' ∧ c ≠ ';'
      ∧ c ≠ '*' ∧ c ≠ '/' ∧ c ≠ '!' ∧ c ≠ '=' ∧ c ≠ '<' ∧ c ≠ '>' ∧ c ≠ quote
      ∧ c ≠ '\n' ∧ c ≠ '\r' ∧ c ≠ '\t' ∧ c ≠ ' ' := by
  refine ⟨?_, ?_, ?_, ?_, ?_, ?_, ?_, ?_, ?_, ?_, ?_, ?_, ?_, ?_, ?_, ?_, ?_, ?_, ?_, ?_⟩ <;>
    (rintro rfl; exact absurd h (by simp [IsDigit, MaxLatin1, quote]))

theorem scanDispatch_digit (U : UnicodeTables) (c : Char) (sc : Scanner)
    (h : IsDigit U c = true) : scanDispatch U c sc = sc.matchNumberLiteral U c := by
  obtain ⟨h1, h2, h3, h4, h5, h6, h7, h8, h9, h10, h11, h12, h13, h14, h15, h16, -, -, -, -⟩ :=
    isDigit_special U c h
  simp only [scanDispatch, h1, h2, h3, h4, h5, h6, h7, h8, h9, h10, h11, h12, h13, h14, h15, h16,
    h, if_false, if_true]

theorem scanDispatch_letter (U : UnicodeTables) (c : Char) (sc : Scanner)
    (h : IsLetter U c = true) (hd : IsDigit U c = false) :
    scanDispatch U c sc = sc.matchIdOrKeyword U c := by
  obtain ⟨h1, h2, h3, h4, h5, h6, h7, h8, h9, h10, h11, h12, h13, h14, h15, h16, -, -, -, -⟩ :=
    isLetter_special U c h
  simp only [scanDispatch, h1, h2, h3, h4, h5, h6, h7, h8, h9, h10, h11, h12, h13, h14, h15, h16,
    h, hd, if_false, if_true, Bool.false_eq_true]

theorem isBlank_of_letter (U : UnicodeTables) (c : Char) (h : IsLetter U c = true) :
    isBlank (.valid c) = false := by
  obtain ⟨-, -, -, -, -, -, -, -, -, -, -, -, -, -, -, -, h1, h2, h3, h4⟩ := isLetter_special U c h
  rw [isBlank_false_iff]; exact ⟨h1, h2, h3, h4⟩

theorem isBlank_of_digit (U : UnicodeTables) (c : Char) (h : IsDigit U c = true) :
    isBlank (.valid c) = false := by
  obtain ⟨-, -, -, -, -, -, -, -, -, -, -, -, -, -, -, -, h1, h2, h3, h4⟩ := isDigit_special U c h
  rw [isBlank_false_iff]; exact ⟨h1, h2, h3, h4⟩

/-- `Scan` on input that starts with a letter. -/
theorem scan_letter (U : UnicodeTables) (c : Char) (xs : List Item) (l : Option Item)
    (line col : Nat) (h : IsLetter U c = true) (hd : IsDigit U c = false) :
    Scan U ⟨⟨.valid c :: xs, l⟩, line, col⟩
      = idResult (c :: (xs.takeWhile (fun x => isAllowedInId U x.r)).map Item.r)
          (afterPeek (xs.dropWhile (fun x => isAllowedInId U x.r)) line
            (colAfterPeeked ((col + 1) % u32) (xs.takeWhile (fun x => isAllowedInId U x.r)))) := by
  rw [Scan]
  simp only [List.length_cons]
  rw [scanLoop_dispatch U _ _ _ _ _ _ (isBlank_of_letter U c h), Item.r,
    scanDispatch_letter U c _ h hd, matchIdOrKeyword, idLoop_spec U xs _ _ _ _ _ (by simp)]
  rfl

/-- `Scan` on input that starts with a digit. -/
theorem scan_digit (U : UnicodeTables) (c : Char) (xs : List Item) (l : Option Item)
    (line col : Nat) (h : IsDigit U c = true) :
    Scan U ⟨⟨.valid c :: xs, l⟩, line, col⟩
      = numberResult (c :: (numberSplit U false xs).1.map Item.r)
          (afterPeek (numberSplit U false xs).2 line
            (colAfter ((col + 1) % u32) (numberSplit U false xs).1)) := by
  rw [Scan]
  simp only [List.length_cons]
  rw [scanLoop_dispatch U _ _ _ _ _ _ (isBlank_of_digit U c h), Item.r,
    scanDispatch_digit U c _ h, matchNumberLiteral, munch_numbers_spec U xs _ _ _ _ _ _ (by simp)]
  rfl

end Scanner

/-! ## Runes of a text -/

theorem newlines_runes (s : List Char) : newlines (runes s) = s.count '\n' := by
  induction s with
  | nil => rfl
  | cons c cs ih =>
    simp only [newlines, runes, List.map_cons] at *
    by_cases h : c = '\n'
    · subst h; simp [ih]
    · rw [List.count_cons_of_ne (by simpa using (Ne.symm h)), List.count_cons_of_ne (Ne.symm h), ih]

theorem map_r_runes (s : List Char) : (runes s).map Item.r = s := by
  induction s with
  | nil => rfl
  | cons c cs ih => simpa [runes, Item.r] using ih

theorem valid_mem_runes (c : Char) (s : List Char) : Item.valid c ∈ runes s ↔ c ∈ s := by
  simp [runes]

theorem colAfter_runes (s : List Char) (col : Nat) :
    colAfter col (runes s) = if s = [] then col else (col + s.length) % u32 := by
  induction s generalizing col with
  | nil => rfl
  | cons c cs ih =>
    have : runes (c :: cs) = .valid c :: runes cs := rfl
    rw [this, Scanner.colAfter_cons, ih]
    simp only [colAdvance, List.length_cons, u32]
    by_cases h : cs = []
    · simp [h]
    · simp only [h, if_false, reduceCtorEq]
      omega

/-! ## Lines: what a call does to the cursor -/

namespace Scanner

theorem lineAfter_append (line : Nat) (xs ys : List Item) :
    lineAfter line (xs ++ ys) = lineAfter (lineAfter line xs) ys := by
  simp [lineAfter]

theorem lineAfter_of_not_mem (xs : List Item) (line : Nat) (h : Item.valid '\n' ∉ xs) :
    lineAfter line xs = line := by
  induction xs with
  | nil => rfl
  | cons x xs ih =>
    have hx : x ≠ .valid '\n' := fun e => h (by simp [e])
    rw [lineAfter_cons, if_neg hx]
    exact ih (fun e => h (List.mem_cons_of_mem _ e))

theorem newlines_of_not_mem (xs : List Item) (h : Item.valid '\n' ∉ xs) : newlines xs = 0 :=
  List.count_eq_zero_of_not_mem h

theorem count_newline_map_r (xs : List Item) : (xs.map Item.r).count '\n' = newlines xs := by
  induction xs with
  | nil => rfl
  | cons x xs ih =>
    simp only [List.map_cons, newlines] at *
    by_cases h : x = .valid '\n'
    · subst h
      simp [Item.r, ih]
    · have h2 : x.r ≠ '\n' := by rwa [Ne, r_eq_iff x '\n' (by decide)]
      rw [List.count_cons_of_ne (Ne.symm h2), List.count_cons_of_ne (Ne.symm h), ih]

/-- A token without value returned at the pending input, nothing consumed. -/
theorem effect_here (buf : List Item) (l : Option Item) (line col : Nat) (tt : TokenType)
    (lex : List Char) :
    Effect buf line (.ret (some ⟨tt, lex, line, none⟩) none ⟨⟨buf, l⟩, line, col⟩) :=
  ⟨[], _, rfl, rfl, rfl, by
    intro t ht
    simp only [Outcome.token?, Option.some.injEq] at ht
    subst ht
    exact ⟨rfl, rfl, fun _ => rfl⟩⟩

/-- A token without value returned after items without newline were consumed. -/
theorem effect_after (c rest : List Item) (l : Option Item) (line col : Nat) (tt : TokenType)
    (lex : List Char) (hc : Item.valid '\n' ∉ c) :
    Effect (c ++ rest) line (.ret (some ⟨tt, lex, line, none⟩) none ⟨⟨rest, l⟩, line, col⟩) :=
  ⟨c, _, rfl, rfl, (lineAfter_of_not_mem c line hc).symm, by
    intro t ht
    simp only [Outcome.token?, Option.some.injEq] at ht
    subst ht
    exact ⟨rfl, (newlines_of_not_mem c hc).symm, fun _ => rfl⟩⟩

/-- An error returned after a prefix was consumed. -/
theorem effect_error (c rest : List Item) (l : Option Item) (line col : Nat) (e : Error) :
    Effect (c ++ rest) line (.ret none (some e) ⟨⟨rest, l⟩, lineAfter line c, col⟩) :=
  ⟨c, _, rfl, rfl, rfl, by intro t ht; simp [Outcome.token?] at ht⟩

theorem matchBang_effect (xs : List Item) (l : Option Item) (line col : Nat) :
    Effect xs line (matchBang ⟨⟨xs, l⟩, line, col⟩) := by
  cases xs with
  | nil =>
    simp only [matchBang, peek_nil, ne_eq, reduceCtorEq, not_false_eq_true, if_true]
    exact effect_error [] [] _ line _ _
  | cons y ys =>
    by_cases h : y.r = '='
    · have hy : y = .valid '=' := (r_eq_iff y '=' (by decide)).1 h
      subst hy
      simp only [matchBang, peek_cons, advance_cons, Item.r, ne_eq, not_true_eq_false, if_false,
        if_true, tok]
      exact effect_after [.valid '='] ys _ line _ _ _ (by simp)
    · simp only [matchBang, peek_cons, ne_eq, not_true_eq_false, if_false, h, tok]
      exact effect_here _ _ line _ _ _

theorem matchLess_effect (xs : List Item) (l : Option Item) (line col : Nat) :
    Effect xs line (matchLess ⟨⟨xs, l⟩, line, col⟩) := by
  cases xs with
  | nil =>
    simp only [matchLess, peek_nil, ne_eq, reduceCtorEq, not_false_eq_true, if_true]
    exact effect_error [] [] _ line _ _
  | cons y ys =>
    by_cases h : y.r = '='
    · have hy : y = .valid '=' := (r_eq_iff y '=' (by decide)).1 h
      subst hy
      simp only [matchLess, peek_cons, advance_cons, Item.r, ne_eq, not_true_eq_false, if_false,
        if_true, tok]
      exact effect_after [.valid '='] ys _ line _ _ _ (by simp)
    · simp only [matchLess, peek_cons, ne_eq, not_true_eq_false, if_false, h, tok]
      exact effect_here _ _ line _ _ _

theorem matchGreater_effect (xs : List Item) (l : Option Item) (line col : Nat) :
    Effect xs line (matchGreater ⟨⟨xs, l⟩, line, col⟩) := by
  cases xs with
  | nil =>
    simp only [matchGreater, peek_nil, ne_eq, reduceCtorEq, not_false_eq_true, if_true]
    exact effect_error [] [] _ line _ _
  | cons y ys =>
    by_cases h : y.r = '='
    · have hy : y = .valid '=' := (r_eq_iff y '=' (by decide)).1 h
      subst hy
      simp only [matchGreater, peek_cons, advance_cons, Item.r, ne_eq, not_true_eq_false,
        if_false, if_true, tok]
      exact effect_after [.valid '='] ys _ line _ _ _ (by simp)
    · simp only [matchGreater, peek_cons, ne_eq, not_true_eq_false, if_false, h, tok]
      exact effect_here _ _ line _ _ _

theorem matchEqual_effect (xs : List Item) (l : Option Item) (line col : Nat) :
    Effect xs line (matchEqual ⟨⟨xs, l⟩, line, col⟩) := by
  cases xs with
  | nil =>
    simp only [matchEqual, peek_nil, ne_eq, reduceCtorEq, not_false_eq_true, if_true]
    exact effect_error [] [] _ line _ _
  | cons y ys =>
    by_cases h : y.r = '='
    · have hy : y = .valid '=' := (r_eq_iff y '=' (by decide)).1 h
      subst hy
      simp only [matchEqual, peek_cons, advance_cons, Item.r, ne_eq, not_true_eq_false, if_false,
        if_true, tok]
      exact effect_after [.valid '='] ys _ line _ _ _ (by simp)
    · by_cases h2 : y.r = '<'
      · have hy : y = .valid '<' := (r_eq_iff y '<' (by decide)).1 h2
        subst hy
        simp only [matchEqual, peek_cons, advance_cons, Item.r, ne_eq, not_true_eq_false,
          if_false, if_true, tok, Char.reduceEq]
        exact effect_after [.valid '<'] ys _ line _ _ _ (by simp)
      · simp only [matchEqual, peek_cons, ne_eq, not_true_eq_false, if_false, h, h2, tok,
          Bool.false_eq_true]
        exact effect_here _ _ line _ _ _


theorem matchStringLiteral_effect (xs : List Item) (l : Option Item) (line col : Nat) :
    Effect xs line (matchStringLiteral ⟨⟨xs, l⟩, line, col⟩) := by
  by_cases h : Item.valid quote ∈ xs
  · obtain ⟨s, rest, rfl, hs⟩ := List.eq_append_cons_of_mem h
    rw [matchStringLiteral, stringLoop_closed s rest hs _ _ _ _ _ (by simp; omega)]
    refine ⟨s ++ [.valid quote], _, rfl, by simp, ?_, ?_⟩
    · rw [lineAfter_append]
      exact (lineAfter_of_not_mem [.valid quote] _ (by simp [quote])).symm
    · intro t ht
      simp only [Outcome.token?, Option.some.injEq] at ht
      subst ht
      refine ⟨rfl, ?_, fun h => absurd rfl h⟩
      simp only [Token.valueNewlines, List.nil_append, count_newline_map_r]
      simp [newlines, quote]
  · rw [matchStringLiteral, stringLoop_open xs h _ _ _ _ _ (by simp)]
    have := effect_error xs [] none line (colAfter col xs)
      (.Scanner ⟨lineAfter line xs, colAfter col xs, "unterminated string".toList⟩)
    simpa using this

theorem matchSlash_effect (xs : List Item) (l : Option Item) (line col : Nat) :
    Effect xs line (matchSlash ⟨⟨xs, l⟩, line, col⟩) := by
  cases xs with
  | nil =>
    simp only [matchSlash, peek_nil, ne_eq, reduceCtorEq, not_false_eq_true, if_true]
    exact effect_error [] [] _ line _ _
  | cons y ys =>
    by_cases h : y.r = '/'
    · have hy : y = .valid '/' := (r_eq_iff y '/' (by decide)).1 h
      subst hy
      simp only [matchSlash, peek_cons, advance_cons, Item.r, ne_eq, not_true_eq_false, if_false,
        if_true]
      by_cases hn : Item.valid '\n' ∈ ys
      · obtain ⟨t, rest, rfl, ht⟩ := List.eq_append_cons_of_mem hn
        rw [commentLoop_newline t rest ht _ _ _ _ _ (by simp; omega)]
        have := effect_after (.valid '/' :: t) (.valid '\n' :: rest) none line
          (colUnread (colAdvance (.valid '\n')
            (colAfter (colAdvance (.valid '/') (colUnread (colAdvance (.valid '/') col))) t)))
          .Comment ([] ++ t.map Item.r) (by simpa using ht)
        simpa [afterPeek] using this
      · rw [commentLoop_eof ys hn _ _ _ _ _ (by simp)]
        have := effect_after (.valid '/' :: ys) [] none line
          (colAfter (colAdvance (.valid '/') (colUnread (colAdvance (.valid '/') col))) ys)
          .Comment ([] ++ ys.map Item.r) (by simpa using hn)
        simpa using this
    · simp only [matchSlash, peek_cons, ne_eq, not_true_eq_false, if_false, h, tok]
      exact effect_here _ _ line _ _ _

theorem numberSplit_append (U : UnicodeTables) (had : Bool) (buf : List Item) :
    (numberSplit U had buf).1 ++ (numberSplit U had buf).2 = buf := by
  unfold numberSplit
  have h0 := List.takeWhile_append_dropWhile (fun x => IsDigit U x.r) buf
  cases h : List.dropWhile (fun x => IsDigit U x.r) buf with
  | nil => rw [h] at h0; simpa using h0
  | cons y ys =>
    rw [h] at h0
    by_cases hy : y = .valid '.' ∧ had = false
    · simp only [hy, and_self, if_true, List.append_assoc, List.cons_append,
        List.takeWhile_append_dropWhile]
      rw [← hy.1]; exact h0
    · simp only [hy, if_false]; exact h0

theorem isDigit_newline (U : UnicodeTables) : IsDigit U '\n' = false := by
  have h : '\n' ≤ MaxLatin1 := by decide
  simp [IsDigit, h]

theorem isAllowedInId_newline (U : UnicodeTables) : isAllowedInId U '\n' = false := by
  have h : '\n' ≤ MaxLatin1 := by decide
  simp [isAllowedInId, IsDigit, IsLetter, latin1Letter, h]

theorem not_mem_takeWhile_digit (U : UnicodeTables) (buf : List Item) :
    Item.valid '\n' ∉ buf.takeWhile (fun x => IsDigit U x.r) := by
  intro h
  have := List.mem_takeWhile_imp h
  simp [Item.r, isDigit_newline] at this

theorem numberSplit_no_newline (U : UnicodeTables) (had : Bool) (buf : List Item) :
    Item.valid '\n' ∉ (numberSplit U had buf).1 := by
  unfold numberSplit
  cases h : List.dropWhile (fun x => IsDigit U x.r) buf with
  | nil => exact not_mem_takeWhile_digit U buf
  | cons y ys =>
    by_cases hy : y = .valid '.' ∧ had = false
    · simp only [hy, and_self, if_true, List.mem_append, List.mem_cons, not_or]
      exact ⟨not_mem_takeWhile_digit U buf, by decide, not_mem_takeWhile_digit U ys⟩
    · simp only [hy, if_false]; exact not_mem_takeWhile_digit U buf

theorem numberResult_effect (c rest : List Item) (line col : Nat) (text : List Char)
    (hc : Item.valid '\n' ∉ c) :
    Effect (c ++ rest) line (numberResult text (afterPeek rest line col)) := by
  unfold numberResult
  cases ParseFloat text with
  | error err =>
    exact ⟨c, _, rfl, rfl, (lineAfter_of_not_mem c line hc).symm, by
      intro t ht; simp [Outcome.token?] at ht⟩
  | ok f =>
    refine ⟨c, _, rfl, rfl, (lineAfter_of_not_mem c line hc).symm, ?_⟩
    intro t ht
    simp only [Outcome.token?, Option.some.injEq] at ht
    subst ht
    exact ⟨rfl, (newlines_of_not_mem c hc).symm, fun _ => rfl⟩

theorem idResult_effect (c rest : List Item) (line col : Nat) (text : List Char)
    (hc : Item.valid '\n' ∉ c) :
    Effect (c ++ rest) line (idResult text (afterPeek rest line col)) := by
  unfold idResult
  cases matchLexemeToKeyword.lookup text with
  | none => exact effect_after c rest _ line _ _ _ hc
  | some kw => exact effect_after c rest _ line _ _ _ hc

theorem matchNumberLiteral_effect (U : UnicodeTables) (xs : List Item) (l : Option Item)
    (line col : Nat) (first : Char) :
    Effect xs line (matchNumberLiteral U ⟨⟨xs, l⟩, line, col⟩ first) := by
  rw [matchNumberLiteral, munch_numbers_spec U xs _ _ _ _ _ _ (by simp)]
  have := numberResult_effect (numberSplit U false xs).1 (numberSplit U false xs).2 line
    (colAfter col (numberSplit U false xs).1)
    ([first] ++ (numberSplit U false xs).1.map Item.r) (numberSplit_no_newline U false xs)
  rwa [numberSplit_append] at this

theorem matchIdOrKeyword_effect (U : UnicodeTables) (xs : List Item) (l : Option Item)
    (line col : Nat) (first : Char) :
    Effect xs line (matchIdOrKeyword U ⟨⟨xs, l⟩, line, col⟩ first) := by
  rw [matchIdOrKeyword, idLoop_spec U xs _ _ _ _ _ (by simp)]
  have hn : Item.valid '\n' ∉ xs.takeWhile (fun x => isAllowedInId U x.r) := by
    intro h
    have := List.mem_takeWhile_imp h
    simp [Item.r, isAllowedInId_newline] at this
  have := idResult_effect (xs.takeWhile (fun x => isAllowedInId U x.r))
    (xs.dropWhile (fun x => isAllowedInId U x.r)) line
    (colAfterPeeked col (xs.takeWhile (fun x => isAllowedInId U x.r)))
    ([first] ++ (xs.takeWhile (fun x => isAllowedInId U x.r)).map Item.r) hn
  rwa [List.takeWhile_append_dropWhile] at this

theorem effect_ite {p : Prop} [Decidable p] {buf : List Item} {line : Nat} {a b : Outcome}
    (ha : Effect buf line a) (hb : Effect buf line b) :
    Effect buf line (if p then a else b) := by
  split <;> assumption

theorem scanDispatch_effect (U : UnicodeTables) (c : Char) (xs : List Item) (l : Option Item)
    (line col : Nat) :
    Effect xs line (scanDispatch U c ⟨⟨xs, l⟩, line, col⟩) := by
  have hp : ∀ tt : TokenType, Effect xs line
      (.ret (some (tok ⟨⟨xs, l⟩, line, col⟩ tt)) none ⟨⟨xs, l⟩, line, col⟩) :=
    fun tt => effect_here xs l line col tt []
  unfold scanDispatch
  exact effect_ite (hp _) <| effect_ite (hp _) <| effect_ite (hp _) <| effect_ite (hp _) <|
    effect_ite (hp _) <| effect_ite (hp _) <| effect_ite (hp _) <| effect_ite (hp _) <|
    effect_ite (hp _) <| effect_ite (hp _) <|
    effect_ite (matchSlash_effect _ _ _ _) <| effect_ite (matchBang_effect _ _ _ _) <|
    effect_ite (matchEqual_effect _ _ _ _) <| effect_ite (matchLess_effect _ _ _ _) <|
    effect_ite (matchGreater_effect _ _ _ _) <| effect_ite (matchStringLiteral_effect _ _ _ _) <|
    effect_ite (matchNumberLiteral_effect U _ _ _ _ _) <|
    effect_ite (matchIdOrKeyword_effect U _ _ _ _ _) <|
    effect_error [] xs _ line _ _


theorem takeWhile_isBlank_cons_of_blank (x : Item) (xs : List Item) (h : isBlank x = true) :
    (x :: xs).takeWhile isBlank = x :: xs.takeWhile isBlank := by
  simp [List.takeWhile_cons, h]

theorem takeWhile_isBlank_cons_of_not (x : Item) (xs : List Item) (h : isBlank x = false) :
    (x :: xs).takeWhile isBlank = [] := by
  simp [List.takeWhile_cons, h]

theorem newlines_cons_newline (xs : List Item) :
    newlines (.valid '\n' :: xs) = newlines xs + 1 := by
  simp [newlines]

theorem newlines_cons_of_ne (x : Item) (xs : List Item) (h : x ≠ .valid '\n') :
    newlines (x :: xs) = newlines xs := by
  simp only [newlines]
  rw [List.count_cons_of_ne (Ne.symm h)]

/-- The cursor and token line after the loop of `Scan`, for any budget above the number of
pending items. -/
theorem scanLoop_effect (U : UnicodeTables) (buf : List Item) :
    ∀ (n : Nat) (l : Option Item) (line col : Nat), buf.length < n → line < u32 →
      ∃ consumed sc', (scanLoop U n ⟨⟨buf, l⟩, line, col⟩).scanner? = some sc'
        ∧ buf = consumed ++ sc'.input.buf
        ∧ sc'.Line = (line + newlines consumed) % u32
        ∧ ∀ t, (scanLoop U n ⟨⟨buf, l⟩, line, col⟩).token? = some t →
            t.Line = (line + newlines (buf.takeWhile isBlank) + t.valueNewlines) % u32
            ∧ (t.Typ ≠ .String → t.valueNewlines = 0) := by
  induction buf with
  | nil =>
    intro n l line col hn hl
    obtain ⟨m, rfl⟩ : ∃ m, n = m + 1 := ⟨n - 1, by simp at hn; omega⟩
    rw [scanLoop_nil]
    refine ⟨[], _, rfl, rfl, ?_, ?_⟩
    · simp [newlines, Nat.mod_eq_of_lt hl]
    · intro t ht; simp [Outcome.token?] at ht
  | cons x xs ih =>
    intro n l line col hn hl
    obtain ⟨m, rfl⟩ : ∃ m, n = m + 1 := ⟨n - 1, by simp at hn; omega⟩
    have hm : xs.length < m := by simp at hn; omega
    by_cases hb : isBlank x = true
    · by_cases hx : x = .valid '\n'
      · subst hx
        rw [scanLoop_newline]
        obtain ⟨c, sc', h1, h2, h3, h4⟩ := ih m (some (.valid '\n')) ((line + 1) % u32) 1 hm
          (Nat.mod_lt _ (by decide))
        refine ⟨.valid '\n' :: c, sc', h1, by rw [h2]; rfl, ?_, ?_⟩
        · rw [h3, newlines_cons_newline]
          simp only [u32]; omega
        · intro t ht
          refine ⟨?_, (h4 t ht).2⟩
          rw [(h4 t ht).1, takeWhile_isBlank_cons_of_blank _ _ hb, newlines_cons_newline]
          simp only [u32]; omega
      · rw [scanLoop_blank U m x xs l line col hb hx]
        obtain ⟨c, sc', h1, h2, h3, h4⟩ := ih m (some x) line (colAdvance x col) hm hl
        refine ⟨x :: c, sc', h1, by rw [h2]; rfl, ?_, ?_⟩
        · rw [h3, newlines_cons_of_ne x c hx]
        · intro t ht
          refine ⟨?_, (h4 t ht).2⟩
          rw [(h4 t ht).1, takeWhile_isBlank_cons_of_blank _ _ hb, newlines_cons_of_ne x _ hx]
    · have hb' : isBlank x = false := by simpa using hb
      have hx : x ≠ .valid '\n' := by
        rintro rfl; exact absurd hb' (by decide)
      rw [scanLoop_dispatch U m x xs l line col hb']
      obtain ⟨c, sc', h1, h2, h3, h4⟩ := scanDispatch_effect U x.r xs (some x) line
        (colAdvance x col)
      refine ⟨x :: c, sc', h1, by rw [h2]; rfl, ?_, ?_⟩
      · rw [h3, lineAfter_eq c line hl, newlines_cons_of_ne x c hx]
      · intro t ht
        obtain ⟨h5, h6, h7⟩ := h4 t ht
        refine ⟨?_, h7⟩
        rw [h5, h3, lineAfter_eq c line hl, takeWhile_isBlank_cons_of_not _ _ hb', h6]
        simp [newlines]


/-- The cursor after one `Scan`. -/
theorem scan_effect (U : UnicodeTables) (sc : Scanner) (hl : sc.Line < u32) :
    ∃ consumed sc', (Scan U sc).scanner? = some sc'
      ∧ sc.input.buf = consumed ++ sc'.input.buf
      ∧ sc'.Line = (sc.Line + newlines consumed) % u32
      ∧ ∀ t, (Scan U sc).token? = some t →
          t.Line = (sc.Line + newlines (sc.input.buf.takeWhile isBlank) + t.valueNewlines) % u32
          ∧ (t.Typ ≠ .String → t.valueNewlines = 0) := by
  obtain ⟨⟨buf, l⟩, line, col⟩ := sc
  exact scanLoop_effect U buf _ l line col (by simp) hl

end Scanner

/-- Along the calls of the driver loop the scanner stands at a suffix of the input and its
`Line` counts the newlines of the consumed part. -/
theorem afterCalls_sync (U : UnicodeTables) (n : Nat) :
    ∀ (sc0 sc : Scanner), sc0.Line < u32 → afterCalls U n sc0 = some sc →
      ∃ pre, sc0.input.buf = pre ++ sc.input.buf ∧ sc.Line = (sc0.Line + newlines pre) % u32 := by
  induction n with
  | zero =>
    intro sc0 sc hl h
    simp only [afterCalls, Option.some.injEq] at h
    subst h
    exact ⟨[], rfl, by simp [newlines, Nat.mod_eq_of_lt hl]⟩
  | succ n ih =>
    intro sc0 sc hl h
    obtain ⟨c, sc1, h1, h2, h3, -⟩ := Scanner.scan_effect U sc0 hl
    rw [afterCalls] at h
    cases hs : Scanner.Scan U sc0 with
    | outOfFuel => rw [hs] at h; simp at h
    | panic e s => rw [hs] at h; simp at h
    | ret tok err s =>
      rw [hs] at h h1
      simp only [Outcome.scanner?, Option.some.injEq] at h1
      subst h1
      have hl1 : s.Line < u32 := by rw [h3]; exact Nat.mod_lt _ (by decide)
      obtain ⟨pre, h4, h5⟩ := ih s sc hl1 h
      refine ⟨c ++ pre, by rw [h2, h4, List.append_assoc], ?_⟩
      rw [h5, h3]
      simp only [newlines, List.count_append, u32]
      omega

/-! ## Columns and keywords -/

theorem colAfter_runes_mod (s : List Char) (col : Nat) :
    colAfter (col % u32) (runes s) = (col + s.length) % u32 := by
  rw [colAfter_runes]
  by_cases h : s = []
  · simp [h]
  · simp [h, Nat.add_mod]

theorem colAfterPeeked_cons (col : Nat) (x : Item) (xs : List Item) :
    colAfterPeeked col (x :: xs)
      = colAfterPeeked (colAdvance x (colUnread (colAdvance x col))) xs := rfl

theorem colUnread_colAdvance_mod (c : Char) (col : Nat) :
    colUnread (colAdvance (.valid c) (col % u32)) = col % u32 := by
  simp only [colUnread, colAdvance, u32]
  omega

theorem colAfterPeeked_runes_mod (s : List Char) (col : Nat) :
    colAfterPeeked (col % u32) (runes s) = (col + s.length) % u32 := by
  induction s generalizing col with
  | nil => simp [colAfterPeeked, runes]
  | cons c cs ih =>
    have h1 : runes (c :: cs) = .valid c :: runes cs := rfl
    have h2 : colAdvance (.valid c) (colUnread (colAdvance (.valid c) (col % u32)))
        = (col + 1) % u32 := by
      simp only [colAdvance, colUnread, u32]; omega
    have h3 : col + 1 + cs.length = col + (cs.length + 1) := by omega
    rw [h1, colAfterPeeked_cons, h2, ih, List.length_cons, h3]

theorem col_two (c : Char) (col : Nat) :
    colAdvance (.valid c) (colUnread (colAdvance (.valid c) ((col + 1) % u32)))
      = (col + 2) % u32 := by
  simp only [colUnread, colAdvance, u32]
  omega

theorem lookup_mem {α β : Type} [BEq α] [LawfulBEq α] (k : α) (v : β) (l : List (α × β))
    (h : l.lookup k = some v) : (k, v) ∈ l := by
  induction l with
  | nil => simp at h
  | cons p ps ih =>
    obtain ⟨a, b⟩ := p
    by_cases hk : k = a
    · subst hk
      simp [List.lookup] at h
      simp [h]
    · have : (k == a) = false := by simpa using hk
      simp [List.lookup, this] at h
      simp [ih h]

theorem isAllowedInId_lower (U : UnicodeTables) (c : Char) (h : 'a' ≤ c ∧ c ≤ 'z') :
    isAllowedInId U c = true ∧ IsLetter U c = true ∧ IsDigit U c = false := by
  have h1 : c ≤ MaxLatin1 := Char.le_trans h.2 (by decide)
  have h2 : ¬ (c ≤ '9') := fun h9 => absurd (Char.le_trans h.1 h9) (by decide)
  simp [isAllowedInId, IsLetter, IsDigit, latin1Letter, h1, h, h2]

/-! ## The claims -/

/-- C1 (as amended): when an operator character `!`, `<` or `>` is followed by an item `d`
other than `=`, and when `=` is followed by an item other than `=` and `<`, `Scan` returns the
single-character kind (`Bang`, `Less`, `Greater`, `Equal`) tagged with the current line and
leaves `d` as the next pending item; on `=` `<` it returns `LessEqual` and consumes both. -/
theorem scan_single_char_operator (U : UnicodeTables) (d : Item) (rest : List Item)
    (l : Option Item) (line col : Nat) (hd : d ≠ .valid '=') :
    Scanner.Scan U ⟨⟨Item.valid '!' :: d :: rest, l⟩, line, col⟩
      = .ret (some ⟨.Bang, [], line, none⟩) none
          ⟨⟨d :: rest, none⟩, line, colUnread (colAdvance d ((col + 1) % u32))⟩
    ∧ Scanner.Scan U ⟨⟨Item.valid '<' :: d :: rest, l⟩, line, col⟩
      = .ret (some ⟨.Less, [], line, none⟩) none
          ⟨⟨d :: rest, none⟩, line, colUnread (colAdvance d ((col + 1) % u32))⟩
    ∧ Scanner.Scan U ⟨⟨Item.valid '>' :: d :: rest, l⟩, line, col⟩
      = .ret (some ⟨.Greater, [], line, none⟩) none
          ⟨⟨d :: rest, none⟩, line, colUnread (colAdvance d ((col + 1) % u32))⟩
    ∧ (d ≠ .valid '<' → Scanner.Scan U ⟨⟨Item.valid '=' :: d :: rest, l⟩, line, col⟩
      = .ret (some ⟨.Equal, [], line, none⟩) none
          ⟨⟨d :: rest, none⟩, line, colUnread (colAdvance d ((col + 1) % u32))⟩)
    ∧ Scanner.Scan U ⟨⟨Item.valid '=' :: Item.valid '<' :: rest, l⟩, line, col⟩
      = .ret (some ⟨.LessEqual, [], line, none⟩) none
          ⟨⟨rest, some (.valid '<')⟩, line, (col + 2) % u32⟩ := by
  have hr : d.r ≠ '=' := by
    rw [Ne, r_eq_iff d '=' (by decide)]; exact hd
  refine ⟨?_, ?_, ?_, fun hd2 => ?_, ?_⟩
  · rw [Scanner.scan_bang]
    simp only [Scanner.matchBang, Scanner.peek_cons, ne_eq, not_true_eq_false, if_false, hr]
    rfl
  · rw [Scanner.scan_less]
    simp only [Scanner.matchLess, Scanner.peek_cons, ne_eq, not_true_eq_false, if_false, hr]
    rfl
  · rw [Scanner.scan_greater]
    simp only [Scanner.matchGreater, Scanner.peek_cons, ne_eq, not_true_eq_false, if_false, hr]
    rfl
  · have hr2 : d.r ≠ '<' := by
      rw [Ne, r_eq_iff d '<' (by decide)]; exact hd2
    rw [Scanner.scan_equal]
    simp only [Scanner.matchEqual, Scanner.peek_cons, ne_eq, not_true_eq_false, if_false, hr, hr2,
      Bool.false_eq_true]
    rfl
  · rw [Scanner.scan_equal]
    simp [Scanner.matchEqual, Scanner.peek_cons, Scanner.advance_cons, Item.r, Scanner.tok,
      col_two]

/-- The amended C1 on the input `!1`. -/
theorem scan_single_char_operator_witness :
    Item.valid '1' ≠ Item.valid '='
    ∧ Scanner.Scan latin1Only ⟨⟨[.valid '!', .valid '1'], none⟩, 1, 0⟩
      = .ret (some ⟨.Bang, [], 1, none⟩) none ⟨⟨[.valid '1'], none⟩, 1, 1⟩ :=
  ⟨by decide, (scan_single_char_operator latin1Only (.valid '1') [] none 1 0 (by decide)).1⟩

/-- C1 (counterexample): on the input `=<1` the first `Scan` returns `LessEqual` and has
consumed the `<`, although `<` is a character other than `=`. -/
theorem scan_equal_less_is_LessEqual : Scanner.Scan latin1Only (NewScanner (runes ['=', '<', '1']))
    = .ret (some ⟨.LessEqual, [], 1, none⟩) none ⟨⟨runes ['1'], some (.valid '<')⟩, 1, 2⟩ := by
  decide

/-- C2: on an operator character `!`, `=`, `<`, `>` followed by `=`, `Scan` returns the
two-character kind (`BangEqual`, `EqualEqual`, `LessEqual`, `GreaterEqual`) tagged with the
current line, has consumed exactly these two characters (the column advanced by two), and
leaves `rest` pending. -/
theorem scan_two_char_operator (U : UnicodeTables) (rest : List Item) (l : Option Item) (line col : Nat) :
    Scanner.Scan U ⟨⟨.valid '!' :: .valid '=' :: rest, l⟩, line, col⟩
        = .ret (some ⟨.BangEqual, [], line, none⟩) none ⟨⟨rest, some (.valid '=')⟩, line, (col + 2) % u32⟩
    ∧ Scanner.Scan U ⟨⟨.valid '=' :: .valid '=' :: rest, l⟩, line, col⟩
        = .ret (some ⟨.EqualEqual, [], line, none⟩) none ⟨⟨rest, some (.valid '=')⟩, line, (col + 2) % u32⟩
    ∧ Scanner.Scan U ⟨⟨.valid '<' :: .valid '=' :: rest, l⟩, line, col⟩
        = .ret (some ⟨.LessEqual, [], line, none⟩) none ⟨⟨rest, some (.valid '=')⟩, line, (col + 2) % u32⟩
    ∧ Scanner.Scan U ⟨⟨.valid '>' :: .valid '=' :: rest, l⟩, line, col⟩
        = .ret (some ⟨.GreaterEqual, [], line, none⟩) none ⟨⟨rest, some (.valid '=')⟩, line, (col + 2) % u32⟩ := by
  have hc : colAdvance (.valid '=') (colUnread (colAdvance (.valid '=') ((col + 1) % u32)))
      = (col + 2) % u32 := by
    simp only [colUnread, colAdvance, u32]
    omega
  refine ⟨?_, ?_, ?_, ?_⟩
  · rw [Scanner.scan_bang]
    simp [Scanner.matchBang, Scanner.peek_cons, Scanner.advance_cons, Item.r, Scanner.tok, hc]
  · rw [Scanner.scan_equal]
    simp [Scanner.matchEqual, Scanner.peek_cons, Scanner.advance_cons, Item.r, Scanner.tok, hc]
  · rw [Scanner.scan_less]
    simp [Scanner.matchLess, Scanner.peek_cons, Scanner.advance_cons, Item.r, Scanner.tok, hc]
  · rw [Scanner.scan_greater]
    simp [Scanner.matchGreater, Scanner.peek_cons, Scanner.advance_cons, Item.r, Scanner.tok, hc]

/-- C3 (the code at the failing inputs): when `!`, `=`, `<`, `>` or `/` is the whole input,
the `Scan` call that reads it returns no token and the error `io.EOF`; the character is
consumed, and the following call signals end of input again. -/
theorem scan_operator_at_end_of_input (U : UnicodeTables) :
    Scanner.Scan U (NewScanner [.valid '!']) = .ret none (some .EOF) ⟨⟨[], none⟩, 1, 1⟩
    ∧ Scanner.Scan U (NewScanner [.valid '=']) = .ret none (some .EOF) ⟨⟨[], none⟩, 1, 1⟩
    ∧ Scanner.Scan U (NewScanner [.valid '<']) = .ret none (some .EOF) ⟨⟨[], none⟩, 1, 1⟩
    ∧ Scanner.Scan U (NewScanner [.valid '>']) = .ret none (some .EOF) ⟨⟨[], none⟩, 1, 1⟩
    ∧ Scanner.Scan U (NewScanner [.valid '/']) = .ret none (some .EOF) ⟨⟨[], none⟩, 1, 1⟩
    ∧ Scanner.Scan U ⟨⟨[], none⟩, 1, 1⟩ = .ret (some Token.zero) (some .EOF) ⟨⟨[], none⟩, 1, 1⟩ :=
  ⟨rfl, rfl, rfl, rfl, rfl, rfl⟩

/-- The two sample inputs of the number rule, call by call: `12.34.56` gives
`Number(12.34)`, `Dot`, `Number(56)`, and `1+1` gives `Number(1)`, `Plus`, `Number(1)`, all on
line 1 (the values are the `float64` bit patterns). -/
theorem scan_number_examples (U : UnicodeTables) :
    Scanner.Scan U (NewScanner (runes ['1', '2', '.', '3', '4', '.', '5', '6']))
        = .ret (some ⟨.Number, [], 1, some (.num 0x4028AE147AE147AE)⟩) none
            ⟨⟨runes ['.', '5', '6'], none⟩, 1, 5⟩
    ∧ Scanner.Scan U ⟨⟨runes ['.', '5', '6'], none⟩, 1, 5⟩
        = .ret (some ⟨.Dot, [], 1, none⟩) none ⟨⟨runes ['5', '6'], some (.valid '.')⟩, 1, 6⟩
    ∧ Scanner.Scan U ⟨⟨runes ['5', '6'], some (.valid '.')⟩, 1, 6⟩
        = .ret (some ⟨.Number, [], 1, some (.num 0x404C000000000000)⟩) none ⟨⟨[], none⟩, 1, 8⟩
    ∧ Scanner.Scan U (NewScanner (runes ['1', '+', '1']))
        = .ret (some ⟨.Number, [], 1, some (.num 0x3FF0000000000000)⟩) none
            ⟨⟨runes ['+', '1'], none⟩, 1, 1⟩
    ∧ Scanner.Scan U ⟨⟨runes ['+', '1'], none⟩, 1, 1⟩
        = .ret (some ⟨.Plus, [], 1, none⟩) none ⟨⟨runes ['1'], some (.valid '+')⟩, 1, 2⟩
    ∧ Scanner.Scan U ⟨⟨runes ['1'], some (.valid '+')⟩, 1, 2⟩
        = .ret (some ⟨.Number, [], 1, some (.num 0x3FF0000000000000)⟩) none ⟨⟨[], none⟩, 1, 3⟩ :=
  ⟨rfl, rfl, rfl, rfl, rfl, rfl⟩

set_option maxRecDepth 100000 in
set_option exponentiation.threshold 2000 in
/-- C4 (the code at a failing input): on a `1` followed by 309 zeros, a decimal literal
above the largest `float64`, the number sub-scanner consumes the whole literal and then
panics with `ErrRange` instead of returning a `Number` token. -/
theorem scan_number_overflow_panics (U : UnicodeTables) :
    Scanner.Scan U (NewScanner (runes ('1' :: List.replicate 309 '0')))
      = .panic .ErrRange ⟨⟨[], none⟩, 1, 310⟩ := by
  rfl

/-- C5 (the code at a failing input): a rune that `unicode.IsDigit` accepts and that is not
an ASCII digit starts the number sub-scanner, whose accumulated text `strconv.ParseFloat`
rejects: the panic branch of `matchNumberLiteral` is reached. -/
theorem scan_non_ascii_digit_panics (U : UnicodeTables) (c : Char) (l : Option Item)
    (line col : Nat) (h : IsDigit U c = true) (hc : ¬ ('0' ≤ c ∧ c ≤ '9')) :
    Scanner.Scan U ⟨⟨[.valid c], l⟩, line, col⟩
      = .panic .ErrSyntax ⟨⟨[], none⟩, line, (col + 1) % u32⟩ := by
  have hdot : c ≠ '.' := (Scanner.isDigit_special U c h).2.2.2.2.2.1
  rw [Scanner.scan_digit U c [] l line col h]
  have hs : numberSplit U false [] = ([], []) := rfl
  simp only [hs, List.map_nil]
  simp [numberResult, ParseFloat, readDecimal, digitVal, hc, hdot, afterPeek, colAfter]

/-- C5 on the input that consists of U+0663 (ARABIC-INDIC DIGIT THREE). -/
theorem scan_non_ascii_digit_panics_witness :
    IsDigit (tablesWithDigit (Char.ofNat 0x663)) (Char.ofNat 0x663) = true
    ∧ ¬ ('0' ≤ Char.ofNat 0x663 ∧ Char.ofNat 0x663 ≤ '9')
    ∧ Scanner.Scan (tablesWithDigit (Char.ofNat 0x663)) ⟨⟨[.valid (Char.ofNat 0x663)], none⟩, 1, 0⟩
      = .panic .ErrSyntax ⟨⟨[], none⟩, 1, (0 + 1) % u32⟩ :=
  ⟨by decide, by decide,
    scan_non_ascii_digit_panics (tablesWithDigit (Char.ofNat 0x663)) (Char.ofNat 0x663) none 1 0
      (by decide) (by decide)⟩

/-- C6 (as amended): for a token that a `Scan` call of the driver loop returns without error,
`Line` equals, modulo `2^32`, 1 plus the number of newlines before the token's first rune,
plus the number of newlines inside the literal when the token is a `String`; for every
other token that last number is zero. -/
theorem token_line_of_run (U : UnicodeTables) (input : List Item) (n : Nat) (sc sc' : Scanner)
    (t : Token) (hn : afterCalls U n (NewScanner input) = some sc)
    (ht : Scanner.Scan U sc = .ret (some t) none sc') :
    t.Line = (1 + newlines (input.take (tokenStart input sc)) + t.valueNewlines) % u32
      ∧ (t.Typ ≠ .String → t.valueNewlines = 0) := by
  have h1 : (NewScanner input).Line < u32 := by simp [NewScanner, u32]
  obtain ⟨pre, h2, h3⟩ := afterCalls_sync U n _ sc h1 hn
  have hl : sc.Line < u32 := by rw [h3]; exact Nat.mod_lt _ (by decide)
  obtain ⟨-, -, -, -, -, h4⟩ := Scanner.scan_effect U sc hl
  obtain ⟨h5, h6⟩ := h4 t (by rw [ht]; rfl)
  refine ⟨?_, h6⟩
  have hin : input = pre ++ sc.input.buf := h2
  have hsplit := (List.takeWhile_append_dropWhile isBlank sc.input.buf).symm
  have htake : input.take (tokenStart input sc) = pre ++ sc.input.buf.takeWhile isBlank := by
    unfold tokenStart
    generalize sc.input.buf.takeWhile isBlank = ws at hsplit ⊢
    generalize sc.input.buf.dropWhile isBlank = ds at hsplit ⊢
    rw [hin, hsplit, ← List.append_assoc]
    have hlen : (pre ++ ws ++ ds).length - ds.length = (pre ++ ws).length := by
      simp only [List.length_append]; omega
    rw [hlen, List.take_left]
  rw [h5, htake, h3]
  simp only [NewScanner, newlines, List.count_append, u32]
  omega

/-- C6 with the input `a`, newline, `+`, at the second call. -/
theorem token_line_of_run_witness :
    afterCalls latin1Only 1 (NewScanner (runes ['a', '\n', '+']))
        = some ⟨⟨runes ['\n', '+'], none⟩, 1, 1⟩
    ∧ Scanner.Scan latin1Only ⟨⟨runes ['\n', '+'], none⟩, 1, 1⟩
        = .ret (some ⟨.Plus, [], 2, none⟩) none ⟨⟨[], some (.valid '+')⟩, 2, 2⟩
    ∧ (2 = (1 + newlines ((runes ['a', '\n', '+']).take
          (tokenStart (runes ['a', '\n', '+']) ⟨⟨runes ['\n', '+'], none⟩, 1, 1⟩)) + 0) % u32) :=
  ⟨by decide, by decide,
    (token_line_of_run latin1Only (runes ['a', '\n', '+']) 1 ⟨⟨runes ['\n', '+'], none⟩, 1, 1⟩
      ⟨⟨[], some (.valid '+')⟩, 2, 2⟩ ⟨.Plus, [], 2, none⟩ (by decide) (by decide)).1⟩

set_option maxRecDepth 4000 in
/-- C6 (counterexample): the input is a string literal that holds one newline. The first
`Scan` returns the `String` token with `Line = 2`, while the token's first rune, the opening
quote at index 0, stands on line 1. -/
theorem string_token_line_is_closing_line :
    Scanner.Scan latin1Only (NewScanner (runes [quote, '\n', quote]))
        = .ret (some ⟨.String, [], 2, some (.str ['\n'])⟩) none ⟨⟨[], some (.valid quote)⟩, 2, 3⟩
      ∧ afterCalls latin1Only 0 (NewScanner (runes [quote, '\n', quote]))
        = some (NewScanner (runes [quote, '\n', quote]))
      ∧ 1 + newlines ((runes [quote, '\n', quote]).take
          (tokenStart (runes [quote, '\n', quote]) (NewScanner (runes [quote, '\n', quote])))) = 1 := by
  decide

/-- C7 (as amended): for a text `s` without a double quote, `Scan` on `"` `s` `"` `rest`
returns a `String` token whose value is exactly `s`, leaves `Line` at its value before the
call plus the number of newlines in `s`, modulo 2^32, has consumed the closing quote, and
leaves `rest` pending. -/
theorem scan_string_literal (U : UnicodeTables) (s : List Char) (rest : List Item)
    (l : Option Item) (line col : Nat) (hs : quote ∉ s) (hline : line < u32) :
    Scanner.Scan U ⟨⟨Item.valid quote :: (runes s ++ Item.valid quote :: rest), l⟩, line, col⟩
      = .ret (some ⟨.String, [], (line + s.count '\n') % u32, some (.str s)⟩) none
          ⟨⟨rest, some (.valid quote)⟩, (line + s.count '\n') % u32,
            (col + 1 + s.length + 1) % u32⟩ := by
  rw [Scanner.scan_quote, Scanner.matchStringLiteral]
  rw [Scanner.stringLoop_closed (runes s) rest (by rwa [valid_mem_runes]) _ _ _ _ _
    (by simp; omega)]
  rw [Scanner.lineAfter_eq _ _ hline, newlines_runes, map_r_runes, colAfter_runes_mod]
  simp [colAdvance]

/-- C7 on a two-line string literal followed by `;`. -/
theorem scan_string_literal_witness :
    quote ∉ ['a', '\n', 'b'] ∧ 1 < u32
    ∧ Scanner.Scan latin1Only
        ⟨⟨Item.valid quote :: (runes ['a', '\n', 'b'] ++ Item.valid quote :: [.valid ';']), none⟩,
          1, 0⟩
      = .ret (some ⟨.String, [], (1 + ['a', '\n', 'b'].count '\n') % u32,
            some (.str ['a', '\n', 'b'])⟩) none
          ⟨⟨[.valid ';'], some (.valid quote)⟩, (1 + ['a', '\n', 'b'].count '\n') % u32,
            (0 + 1 + ['a', '\n', 'b'].length + 1) % u32⟩ :=
  ⟨by decide, by decide,
    scan_string_literal latin1Only ['a', '\n', 'b'] [.valid ';'] none 1 0 (by decide) (by decide)⟩

/-- C8 (as amended): for a text `s` without a double quote, `Scan` on `"` `s` followed by
end of input returns no token and the `ScannerError` with message `unterminated string`,
whose line and column are the scanner's `Line` and `Column` at end of input; that line is
the starting line plus the number of newlines in `s`, modulo 2^32. -/
theorem scan_unterminated_string (U : UnicodeTables) (s : List Char)
    (l : Option Item) (line col : Nat) (hs : quote ∉ s) (hline : line < u32) :
    Scanner.Scan U ⟨⟨Item.valid quote :: runes s, l⟩, line, col⟩
      = .ret none
          (some (.Scanner ⟨(line + s.count '\n') % u32, (col + 1 + s.length) % u32,
            "unterminated string".toList⟩))
          ⟨⟨[], none⟩, (line + s.count '\n') % u32, (col + 1 + s.length) % u32⟩ := by
  rw [Scanner.scan_quote, Scanner.matchStringLiteral]
  rw [Scanner.stringLoop_open (runes s) (by rwa [valid_mem_runes]) _ _ _ _ _ (by simp)]
  rw [Scanner.lineAfter_eq _ _ hline, newlines_runes, colAfter_runes_mod]

/-- C8 on an unterminated two-line string literal. -/
theorem scan_unterminated_string_witness :
    quote ∉ ['a', '\n', 'b'] ∧ 1 < u32
    ∧ Scanner.Scan latin1Only ⟨⟨Item.valid quote :: runes ['a', '\n', 'b'], none⟩, 1, 0⟩
      = .ret none
          (some (.Scanner ⟨(1 + ['a', '\n', 'b'].count '\n') % u32,
            (0 + 1 + ['a', '\n', 'b'].length) % u32, "unterminated string".toList⟩))
          ⟨⟨[], none⟩, (1 + ['a', '\n', 'b'].count '\n') % u32,
            (0 + 1 + ['a', '\n', 'b'].length) % u32⟩ :=
  ⟨by decide, by decide,
    scan_unterminated_string latin1Only ['a', '\n', 'b'] none 1 0 (by decide) (by decide)⟩

/-- C9: for a text `t` without a newline, `Scan` on `//` `t` followed by a newline and `rest`,
or by end of input, returns without error a `Comment` token with lexeme `t` on the current
line; the newline stays pending and `Line` is unchanged, and the `Scan` call that starts at
that newline is the one that increments `Line`. A `/` followed by an item other than `/`
gives a `Slash` token and leaves that item pending. -/
theorem scan_comment_and_slash (U : UnicodeTables) (t : List Char) (rest : List Item) (d : Item)
    (l : Option Item) (line col : Nat) (ht : '\n' ∉ t) (hd : d ≠ .valid '/') :
    Scanner.Scan U
        ⟨⟨Item.valid '/' :: Item.valid '/' :: (runes t ++ Item.valid '\n' :: rest), l⟩, line, col⟩
      = .ret (some ⟨.Comment, t, line, none⟩) none
          ⟨⟨Item.valid '\n' :: rest, none⟩, line, (col + 2 + t.length) % u32⟩
    ∧ Scanner.Scan U ⟨⟨Item.valid '/' :: Item.valid '/' :: runes t, l⟩, line, col⟩
      = .ret (some ⟨.Comment, t, line, none⟩) none ⟨⟨[], none⟩, line, (col + 2 + t.length) % u32⟩
    ∧ Scanner.Scan U ⟨⟨Item.valid '\n' :: rest, none⟩, line, (col + 2 + t.length) % u32⟩
      = Scanner.Scan U ⟨⟨rest, some (.valid '\n')⟩, (line + 1) % u32, 1⟩
    ∧ Scanner.Scan U ⟨⟨Item.valid '/' :: d :: rest, l⟩, line, col⟩
      = .ret (some ⟨.Slash, [], line, none⟩) none
          ⟨⟨d :: rest, none⟩, line, colUnread (colAdvance d ((col + 1) % u32))⟩ := by
  have hr : d.r ≠ '/' := by
    rw [Ne, r_eq_iff d '/' (by decide)]; exact hd
  have ht' : Item.valid '\n' ∉ runes t := by rwa [valid_mem_runes]
  refine ⟨?_, ?_, ?_, ?_⟩
  · rw [Scanner.scan_slash]
    simp only [Scanner.matchSlash, Scanner.peek_cons, Scanner.advance_cons, Item.r, ne_eq,
      not_true_eq_false, if_false, if_true]
    rw [Scanner.commentLoop_newline (runes t) rest ht' _ _ _ _ _ (by simp; omega), map_r_runes,
      col_two, colAfter_runes_mod]
    simp only [afterPeek, colUnread_colAdvance_mod, List.nil_append]
  · rw [Scanner.scan_slash]
    simp only [Scanner.matchSlash, Scanner.peek_cons, Scanner.advance_cons, Item.r, ne_eq,
      not_true_eq_false, if_false, if_true]
    rw [Scanner.commentLoop_eof (runes t) ht' _ _ _ _ _ (by simp), map_r_runes,
      col_two, colAfter_runes_mod]
    rfl
  · exact Scanner.scan_newline U rest none line _
  · rw [Scanner.scan_slash]
    simp only [Scanner.matchSlash, Scanner.peek_cons, ne_eq, not_true_eq_false, if_false, hr]
    rfl

/-- C9 on the input `// a`, newline, `1`. -/
theorem scan_comment_and_slash_witness :
    '\n' ∉ [' ', 'a'] ∧ Item.valid '1' ≠ Item.valid '/'
    ∧ Scanner.Scan latin1Only
        ⟨⟨Item.valid '/' :: Item.valid '/' :: (runes [' ', 'a'] ++ Item.valid '\n' :: [.valid '1']),
          none⟩, 1, 0⟩
      = .ret (some ⟨.Comment, [' ', 'a'], 1, none⟩) none
          ⟨⟨Item.valid '\n' :: [.valid '1'], none⟩, 1, (0 + 2 + [' ', 'a'].length) % u32⟩ :=
  ⟨by decide, by decide,
    (scan_comment_and_slash latin1Only [' ', 'a'] [.valid '1'] (.valid '1') none 1 0
      (by decide) (by decide)).1⟩

/-- C10: for every key `k` of the keyword table, `Scan` on the input that consists of exactly
`k` returns a token whose kind is the table's kind for `k`, with empty lexeme and no literal
value; that kind is never `Identifier`. -/
theorem scan_keyword (U : UnicodeTables) (k : List Char) (tt : TokenType) (l : Option Item) (line col : Nat)
    (h : matchLexemeToKeyword.lookup k = some tt) :
    tt ≠ .Identifier
    ∧ Scanner.Scan U ⟨⟨runes k, l⟩, line, col⟩
      = .ret (some ⟨tt, [], line, none⟩) none ⟨⟨[], none⟩, line, (col + k.length) % u32⟩ := by
  have hm := lookup_mem k tt _ h
  have hall : ∀ c ∈ k, 'a' ≤ c ∧ c ≤ 'z' := by
    simp only [matchLexemeToKeyword, List.mem_cons, Prod.mk.injEq, List.mem_singleton, List.not_mem_nil, or_false] at hm
    rcases hm with ⟨rfl, rfl⟩ | ⟨rfl, rfl⟩ | ⟨rfl, rfl⟩ | ⟨rfl, rfl⟩ | ⟨rfl, rfl⟩ | ⟨rfl, rfl⟩ | ⟨rfl, rfl⟩ | ⟨rfl, rfl⟩ | ⟨rfl, rfl⟩ | ⟨rfl, rfl⟩ | ⟨rfl, rfl⟩ | ⟨rfl, rfl⟩ | ⟨rfl, rfl⟩ | ⟨rfl, rfl⟩ | ⟨rfl, rfl⟩ | ⟨rfl, rfl⟩ <;> decide
  have htt : tt ≠ .Identifier := by
    simp only [matchLexemeToKeyword, List.mem_cons, Prod.mk.injEq, List.mem_singleton, List.not_mem_nil, or_false] at hm
    rcases hm with ⟨rfl, rfl⟩ | ⟨rfl, rfl⟩ | ⟨rfl, rfl⟩ | ⟨rfl, rfl⟩ | ⟨rfl, rfl⟩ | ⟨rfl, rfl⟩ | ⟨rfl, rfl⟩ | ⟨rfl, rfl⟩ | ⟨rfl, rfl⟩ | ⟨rfl, rfl⟩ | ⟨rfl, rfl⟩ | ⟨rfl, rfl⟩ | ⟨rfl, rfl⟩ | ⟨rfl, rfl⟩ | ⟨rfl, rfl⟩ | ⟨rfl, rfl⟩ <;> decide
  refine ⟨htt, ?_⟩
  cases k with
  | nil => simp [matchLexemeToKeyword, List.lookup] at h
  | cons c cs =>
    have hc := isAllowedInId_lower U c (hall c (by simp))
    have hcs : ∀ x ∈ runes cs, isAllowedInId U x.r = true := by
      intro x hx
      simp only [runes, List.mem_map] at hx
      obtain ⟨a, ha, rfl⟩ := hx
      exact (isAllowedInId_lower U a (hall a (by simp [ha]))).1
    have ht : (runes cs).takeWhile (fun x => isAllowedInId U x.r) = runes cs := by
      rw [List.takeWhile_eq_self_iff]; exact hcs
    have hdr : (runes cs).dropWhile (fun x => isAllowedInId U x.r) = [] := by
      rw [List.dropWhile_eq_nil_iff]; exact hcs
    have hr : runes (c :: cs) = .valid c :: runes cs := rfl
    rw [hr, Scanner.scan_letter U c _ _ _ _ hc.2.1 hc.2.2, ht, hdr, map_r_runes, idResult, h,
      colAfterPeeked_runes_mod]
    have h3 : col + 1 + cs.length = col + (c :: cs).length := by
      simp only [List.length_cons]; omega
    rw [h3]
    rfl

/-- C10 on the keyword `while`. -/
theorem scan_keyword_witness :
    matchLexemeToKeyword.lookup ['w', 'h', 'i', 'l', 'e'] = some .While
    ∧ TokenType.While ≠ .Identifier
    ∧ Scanner.Scan latin1Only ⟨⟨runes ['w', 'h', 'i', 'l', 'e'], none⟩, 1, 0⟩
      = .ret (some ⟨.While, [], 1, none⟩) none
          ⟨⟨[], none⟩, 1, (0 + ['w', 'h', 'i', 'l', 'e'].length) % u32⟩ :=
  ⟨by decide,
    scan_keyword latin1Only ['w', 'h', 'i', 'l', 'e'] .While none 1 0 (by decide)⟩

/-! ## Case analysis of `Scan` -/

namespace Scanner

theorem ite_cases {P : Outcome → Prop} {p : Prop} [Decidable p] {a b : Outcome}
    (ha : p → P a) (hb : ¬ p → P b) : P (if p then a else b) := by
  split
  · exact ha ‹_›
  · exact hb ‹_›

theorem punct_none (c : Char) (h1 : c ≠ '(') (h2 : c ≠ ')') (h3 : c ≠ '{') (h4 : c ≠ '}')
    (h5 : c ≠ ',') (h6 : c ≠ '.') (h7 : c ≠ '-') (h8 : c ≠ '+') (h9 : c ≠ ';') (h10 : c ≠ '*') :
    punctuation.lookup c = none := by
  simp only [punctuation, List.lookup, beq_eq_false_iff_ne.mpr h1, beq_eq_false_iff_ne.mpr h2,
    beq_eq_false_iff_ne.mpr h3, beq_eq_false_iff_ne.mpr h4, beq_eq_false_iff_ne.mpr h5,
    beq_eq_false_iff_ne.mpr h6, beq_eq_false_iff_ne.mpr h7, beq_eq_false_iff_ne.mpr h8,
    beq_eq_false_iff_ne.mpr h9, beq_eq_false_iff_ne.mpr h10]

/-- Case analysis on the `switch` of `Scan`. -/
theorem scanDispatch_cases (U : UnicodeTables) (c : Char) (sc : Scanner) (P : Outcome → Prop)
    (hp : ∀ tt, punctuation.lookup c = some tt → P (.ret (some (sc.tok tt)) none sc))
    (hslash : c = '/' → P sc.matchSlash)
    (hbang : c = '!' → P sc.matchBang)
    (hequal : c = '=' → P sc.matchEqual)
    (hless : c = '<' → P sc.matchLess)
    (hgreater : c = '>' → P sc.matchGreater)
    (hquote : c = quote → P sc.matchStringLiteral)
    (hdigit : IsDigit U c = true → P (sc.matchNumberLiteral U c))
    (hletter : IsLetter U c = true → IsDigit U c = false → P (sc.matchIdOrKeyword U c))
    (hother : c ≠ '\n' → c ≠ '\r' → c ≠ '\t' → c ≠ ' ' → unrecognized U c →
      P (.ret none (some (sc.unexpectedSymbol c)) sc))
    (hblank : c = '\n' ∨ c = '\r' ∨ c = '\t' ∨ c = ' ' → P (scanDispatch U c sc)) :
    P (scanDispatch U c sc) := by
  by_cases hb : c = '\n' ∨ c = '\r' ∨ c = '\t' ∨ c = ' '
  · exact hblank hb
  · simp only [not_or] at hb
    obtain ⟨b1, b2, b3, b4⟩ := hb
    unfold scanDispatch
    exact ite_cases (fun h => hp _ (by rw [h]; rfl)) fun h1 =>
      ite_cases (fun h => hp _ (by rw [h]; rfl)) fun h2 =>
      ite_cases (fun h => hp _ (by rw [h]; rfl)) fun h3 =>
      ite_cases (fun h => hp _ (by rw [h]; rfl)) fun h4 =>
      ite_cases (fun h => hp _ (by rw [h]; rfl)) fun h5 =>
      ite_cases (fun h => hp _ (by rw [h]; rfl)) fun h6 =>
      ite_cases (fun h => hp _ (by rw [h]; rfl)) fun h7 =>
      ite_cases (fun h => hp _ (by rw [h]; rfl)) fun h8 =>
      ite_cases (fun h => hp _ (by rw [h]; rfl)) fun h9 =>
      ite_cases (fun h => hp _ (by rw [h]; rfl)) fun h10 =>
      ite_cases hslash fun h11 => ite_cases hbang fun h12 => ite_cases hequal fun h13 =>
      ite_cases hless fun h14 => ite_cases hgreater fun h15 => ite_cases hquote fun h16 =>
      ite_cases hdigit fun h17 =>
      ite_cases (fun h => hletter h (by simpa using h17)) fun h18 =>
      hother b1 b2 b3 b4 ⟨punct_none c h1 h2 h3 h4 h5 h6 h7 h8 h9 h10, h11, h12, h13, h14, h15, h16,
        b1, b2, b3, b4, by simpa using h17, by simpa using h18⟩

/-- `Scan` does not look at the rune that could be unread when it starts. -/
theorem scanLoop_lastRune (U : UnicodeTables) (n : Nat) (buf : List Item) (l l' : Option Item)
    (line col : Nat) :
    scanLoop U (n + 1) ⟨⟨buf, l⟩, line, col⟩ = scanLoop U (n + 1) ⟨⟨buf, l'⟩, line, col⟩ := by
  cases buf with
  | nil => rw [scanLoop_nil, scanLoop_nil]
  | cons x xs =>
    by_cases hb : isBlank x = true
    · by_cases hx : x = .valid '\n'
      · subst hx; rw [scanLoop_newline, scanLoop_newline]
      · rw [scanLoop_blank U n x xs l line col hb hx, scanLoop_blank U n x xs l' line col hb hx]
    · have hb' : isBlank x = false := by simpa using hb
      rw [scanLoop_dispatch U n x xs l line col hb', scanLoop_dispatch U n x xs l' line col hb']

theorem scan_lastRune (U : UnicodeTables) (buf : List Item) (l l' : Option Item)
    (line col : Nat) :
    Scan U ⟨⟨buf, l⟩, line, col⟩ = Scan U ⟨⟨buf, l'⟩, line, col⟩ :=
  scanLoop_lastRune U _ buf l l' line col

theorem colBlanks_cons (col : Nat) (x : Item) (xs : List Item) :
    colBlanks col (x :: xs) = colBlanks (if x = .valid '\n' then 1 else colAdvance x col) xs := rfl

/-- The loop of `Scan` over leading blank items. -/
theorem scan_skip (U : UnicodeTables) (ws : List Item) (hws : ∀ x ∈ ws, isBlank x = true) :
    ∀ (rest : List Item) (l l' : Option Item) (line col : Nat),
      Scan U ⟨⟨ws ++ rest, l⟩, line, col⟩
        = Scan U ⟨⟨rest, l'⟩, lineAfter line ws, colBlanks col ws⟩ := by
  induction ws with
  | nil => intro rest l l' line col; exact scan_lastRune U rest l l' line col
  | cons x xs ih =>
    intro rest l l' line col
    have hxs : ∀ y ∈ xs, isBlank y = true := fun y hy => hws y (List.mem_cons_of_mem _ hy)
    have hx : isBlank x = true := hws x (by simp)
    have ih' := ih hxs rest (some x) l'
    have e : (x :: xs) ++ rest = x :: (xs ++ rest) := rfl
    rw [lineAfter_cons, colBlanks_cons, e]
    by_cases hn : x = .valid '\n'
    · subst hn
      rw [if_pos rfl, if_pos rfl, ← ih']
      exact scan_newline U (xs ++ rest) l line col
    · rw [if_neg hn, if_neg hn, ← ih']
      show scanLoop U ((x :: (xs ++ rest)).length + 1) _ = scanLoop U ((xs ++ rest).length + 1) _
      rw [List.length_cons, scanLoop_blank U _ x (xs ++ rest) l line col hx hn]

end Scanner

theorem keywords_prefix_free : ∀ k ∈ keywords, ∀ k' ∈ keywords, k.isPrefixOf k' = true → k = k' := by
  decide

theorem lookup_keyword_append (k : List Char) (tt : TokenType) (s : List Char)
    (hk : matchLexemeToKeyword.lookup k = some tt) (hs : s ≠ []) :
    matchLexemeToKeyword.lookup (k ++ s) = none := by
  cases h : matchLexemeToKeyword.lookup (k ++ s) with
  | none => rfl
  | some tt' =>
    exfalso
    have h1 : k ∈ keywords := List.mem_map.2 ⟨(k, tt), lookup_mem k tt _ hk, rfl⟩
    have h2 : k ++ s ∈ keywords := List.mem_map.2 ⟨(k ++ s, tt'), lookup_mem _ tt' _ h, rfl⟩
    have h3 := keywords_prefix_free k h1 (k ++ s) h2
      (List.isPrefixOf_iff_prefix.2 (List.prefix_append k s))
    have h4 := congrArg List.length h3
    simp only [List.length_append] at h4
    exact hs (List.length_eq_zero.1 (by omega))

theorem takeWhile_of_head_not {α : Type} (p : α → Bool) (rest : List α)
    (h : ∀ x ∈ rest.head?, p x = false) : rest.takeWhile p = [] ∧ rest.dropWhile p = rest := by
  cases rest with
  | nil => exact ⟨rfl, rfl⟩
  | cons y ys =>
    have hy : p y = false := h y (by simp)
    simp [List.takeWhile_cons, List.dropWhile_cons, hy]

theorem keyword_lower (k : List Char) (tt : TokenType)
    (hk : matchLexemeToKeyword.lookup k = some tt) : ∀ c ∈ k, 'a' ≤ c ∧ c ≤ 'z' := by
  have hm : k ∈ keywords := List.mem_map.2 ⟨(k, tt), lookup_mem k tt _ hk, rfl⟩
  have hall : ∀ k ∈ keywords, ∀ c ∈ k, 'a' ≤ c ∧ c ≤ 'z' := by decide
  exact hall k hm

/-- C11: for every key `k` of the keyword table and every non-empty text `s` of letters,
digits and underscores, followed by the end of input or by an item that is not allowed in an
identifier, `Scan` on `k s rest` returns one `Identifier` token whose lexeme is `k s`, on the
current line, with Column advanced by the length of `k s` (mod 2^32) and `rest` left
pending: the keyword is not split off. -/
theorem scan_keyword_then_more (U : UnicodeTables) (k : List Char) (tt : TokenType)
    (s : List Char) (rest : List Item) (l : Option Item) (line col : Nat)
    (hk : matchLexemeToKeyword.lookup k = some tt) (hs : s ≠ [])
    (hall : ∀ c ∈ s, isAllowedInId U c = true)
    (hrest : ∀ x ∈ rest.head?, isAllowedInId U x.r = false) :
    Scanner.Scan U ⟨⟨runes (k ++ s) ++ rest, l⟩, line, col⟩
      = .ret (some ⟨.Identifier, k ++ s, line, none⟩) none
          (afterPeek rest line ((col + (k ++ s).length) % u32)) := by
  have hlow := keyword_lower k tt hk
  cases k with
  | nil => simp [matchLexemeToKeyword, List.lookup] at hk
  | cons c cs =>
    have hc := isAllowedInId_lower U c (hlow c (by simp))
    have hpre : ∀ x ∈ runes (cs ++ s), isAllowedInId U x.r = true := by
      intro x hx
      simp only [runes, List.mem_map, List.mem_append] at hx
      obtain ⟨a, ha, rfl⟩ := hx
      rcases ha with ha | ha
      · exact (isAllowedInId_lower U a (hlow a (by simp [ha]))).1
      · exact hall a ha
    obtain ⟨ht, hdr⟩ := takeWhile_of_head_not (fun x => isAllowedInId U x.r) rest hrest
    have e : runes (c :: cs ++ s) ++ rest = .valid c :: (runes (cs ++ s) ++ rest) := rfl
    rw [e, Scanner.scan_letter U c _ _ _ _ hc.2.1 hc.2.2, List.takeWhile_append_of_pos hpre,
      List.dropWhile_append_of_pos hpre, ht, hdr, List.append_nil, map_r_runes,
      colAfterPeeked_runes_mod, idResult]
    have e2 : c :: (cs ++ s) = (c :: cs) ++ s := rfl
    rw [e2, lookup_keyword_append (c :: cs) tt s hk hs]
    have h3 : col + 1 + (cs ++ s).length = col + (c :: cs ++ s).length := by
      simp only [List.length_append, List.length_cons]; omega
    rw [h3]
    rfl

namespace Scanner

theorem isBlank_of_unrecognized (U : UnicodeTables) (c : Char) (h : unrecognized U c) :
    isBlank (.valid c) = false := by
  obtain ⟨-, -, -, -, -, -, -, b1, b2, b3, b4, -, -⟩ := h
  rw [isBlank_false_iff]; exact ⟨b1, b2, b3, b4⟩

theorem lookup_ne_of_none {c d : Char} {tt : TokenType} (h : punctuation.lookup c = none)
    (hd : punctuation.lookup d = some tt) : c ≠ d := by
  rintro rfl; rw [h] at hd; exact absurd hd (by simp)

theorem scanDispatch_other (U : UnicodeTables) (c : Char) (sc : Scanner)
    (h : unrecognized U c) :
    scanDispatch U c sc = .ret none (some (sc.unexpectedSymbol c)) sc := by
  obtain ⟨hp, h11, h12, h13, h14, h15, h16, -, -, -, -, hd, hl⟩ := h
  have h1 : c ≠ '(' := @lookup_ne_of_none c '(' TokenType.LeftParen hp rfl
  have h2 : c ≠ ')' := @lookup_ne_of_none c ')' TokenType.RightParen hp rfl
  have h3 : c ≠ '{' := @lookup_ne_of_none c '{' TokenType.LeftBrace hp rfl
  have h4 : c ≠ '}' := @lookup_ne_of_none c '}' TokenType.RightBrace hp rfl
  have h5 : c ≠ ',' := @lookup_ne_of_none c ',' TokenType.Comma hp rfl
  have h6 : c ≠ '.' := @lookup_ne_of_none c '.' TokenType.Dot hp rfl
  have h7 : c ≠ '-' := @lookup_ne_of_none c '-' TokenType.Minus hp rfl
  have h8 : c ≠ '+' := @lookup_ne_of_none c '+' TokenType.Plus hp rfl
  have h9 : c ≠ ';' := @lookup_ne_of_none c ';' TokenType.Semicolon hp rfl
  have h10 : c ≠ '*' := @lookup_ne_of_none c '*' TokenType.Star hp rfl
  simp only [scanDispatch, h1, h2, h3, h4, h5, h6, h7, h8, h9, h10, h11, h12, h13, h14, h15, h16,
    hd, hl, if_false, Bool.false_eq_true]

theorem scan_nil (U : UnicodeTables) (l : Option Item) (line col : Nat) :
    Scan U ⟨⟨[], l⟩, line, col⟩ = .ret (some Token.zero) (some .EOF) ⟨⟨[], none⟩, line, col⟩ :=
  scanLoop_nil U 0 l line col

theorem scan_dispatch (U : UnicodeTables) (x : Item) (xs : List Item) (l : Option Item)
    (line col : Nat) (hb : isBlank x = false) :
    Scan U ⟨⟨x :: xs, l⟩, line, col⟩
      = scanDispatch U x.r ⟨⟨xs, some x⟩, line, colAdvance x col⟩ :=
  scanLoop_dispatch U _ x xs l line col hb

end Scanner

/-- C12: for every rune `c` that is no whitespace, no punctuation, no operator character, not
the quote, no digit and no letter, and every `rest`, `Scan` on `c rest` returns no token and
a `ScannerError` with the message `unexpected symbol: ` followed by `c`, carrying the line
and the column of the scanner once `c` is read; exactly `c` has been consumed, and the next
call returns what a call on `rest` returns, whatever the reader remembers as its last rune. -/
theorem scan_unexpected_symbol (U : UnicodeTables) (c : Char) (rest : List Item)
    (l : Option Item) (line col : Nat) (h : unrecognized U c) :
    Scanner.Scan U ⟨⟨Item.valid c :: rest, l⟩, line, col⟩
      = .ret none
          (some (.Scanner ⟨line, (col + 1) % u32, "unexpected symbol: ".toList ++ [c]⟩))
          ⟨⟨rest, some (.valid c)⟩, line, (col + 1) % u32⟩
    ∧ ∀ l', Scanner.Scan U ⟨⟨rest, some (.valid c)⟩, line, (col + 1) % u32⟩
        = Scanner.Scan U ⟨⟨rest, l'⟩, line, (col + 1) % u32⟩ := by
  refine ⟨?_, fun l' => Scanner.scan_lastRune U rest _ l' line _⟩
  rw [Scanner.scan_dispatch U _ _ _ _ _ (Scanner.isBlank_of_unrecognized U c h), Item.r,
    Scanner.scanDispatch_other U c _ h]
  rfl

/-- `Scan` on input that holds blank items only. -/
theorem scan_blanks (U : UnicodeTables) (ws : List Item) (hws : ∀ x ∈ ws, isBlank x = true)
    (l : Option Item) (line col : Nat) :
    Scanner.Scan U ⟨⟨ws, l⟩, line, col⟩
      = .ret (some Token.zero) (some .EOF) ⟨⟨[], none⟩, lineAfter line ws, colBlanks col ws⟩ := by
  have h := Scanner.scan_skip U ws hws [] l none line col
  rw [List.append_nil] at h
  rw [h, Scanner.scan_nil]

/-- C13 (as amended): on input made of spaces, tabs, carriage returns and newlines only (the
empty input included) the first `Scan` on a new scanner returns `io.EOF` with everything
consumed, and Line is then 1 plus the number of newlines of the input modulo 2^32; with
fewer than 2^32 - 1 newlines this is 1 plus the number of newlines. -/
theorem scan_whitespace_only (U : UnicodeTables) (ws : List Item)
    (hws : ∀ x ∈ ws, isBlank x = true) :
    Scanner.Scan U (NewScanner ws)
      = .ret (some Token.zero) (some .EOF) ⟨⟨[], none⟩, (1 + newlines ws) % u32, colBlanks 0 ws⟩
    ∧ (newlines ws < u32 - 1 → (1 + newlines ws) % u32 = 1 + newlines ws) := by
  constructor
  · rw [NewScanner, scan_blanks U ws hws, Scanner.lineAfter_eq ws 1 (by decide)]
  · intro h
    apply Nat.mod_eq_of_lt
    simp only [u32] at h ⊢
    omega

theorem colBlanks_replicate_newline (n col : Nat) :
    colBlanks col (List.replicate (n + 1) (Item.valid '\n')) = 1 := by
  induction n generalizing col with
  | zero => rfl
  | succ n ih =>
    rw [List.replicate_succ, Scanner.colBlanks_cons, if_pos rfl]
    exact ih 1

/-- C13 (counterexample): on 2^32 - 1 newlines the first `Scan` returns `io.EOF` and leaves
Line at 0, while 1 plus the number of newlines of the input is 2^32. -/
theorem scan_newlines_wrap :
    Scanner.Scan latin1Only (NewScanner (List.replicate 4294967295 (Item.valid '\n')))
      = .ret (some Token.zero) (some .EOF) ⟨⟨[], none⟩, 0, 1⟩
    ∧ 1 + newlines (List.replicate 4294967295 (Item.valid '\n')) = 4294967296 := by
  have hn : newlines (List.replicate 4294967295 (Item.valid '\n')) = 4294967295 :=
    List.count_replicate_self _ _
  have hb : ∀ x ∈ List.replicate 4294967295 (Item.valid '\n'), isBlank x = true := by
    intro x hx
    rw [List.eq_of_mem_replicate hx]
    rfl
  refine ⟨?_, by rw [hn]⟩
  rw [NewScanner, scan_blanks latin1Only _ hb, Scanner.lineAfter_eq _ 1 (by decide), hn,
    colBlanks_replicate_newline 4294967294 0]
  rfl


/-- C18: when the next rune `c` is a letter, what follows it splits into the longest run of
items allowed in an identifier and a remainder that does not start with such an item; `Scan`
consumes `c` and that run and leaves the remainder pending. It returns the keyword kind with
empty lexeme and no value when the consumed text is a key of the keyword table, and otherwise
an `Identifier` token whose lexeme is the consumed text. -/
theorem scan_identifier (U : UnicodeTables) (c : Char) (xs : List Item) (l : Option Item)
    (line col : Nat) (hl : IsLetter U c = true) (hd : IsDigit U c = false) :
    xs = xs.takeWhile (fun x => isAllowedInId U x.r) ++ xs.dropWhile (fun x => isAllowedInId U x.r)
    ∧ (∀ x ∈ xs.takeWhile (fun x => isAllowedInId U x.r), isAllowedInId U x.r = true)
    ∧ (∀ x ∈ (xs.dropWhile (fun x => isAllowedInId U x.r)).head?, isAllowedInId U x.r = false)
    ∧ (∀ kw, matchLexemeToKeyword.lookup
          (c :: (xs.takeWhile (fun x => isAllowedInId U x.r)).map Item.r) = some kw →
        Scanner.Scan U ⟨⟨Item.valid c :: xs, l⟩, line, col⟩
          = .ret (some ⟨kw, [], line, none⟩) none
              (afterPeek (xs.dropWhile (fun x => isAllowedInId U x.r)) line
                (colAfterPeeked ((col + 1) % u32) (xs.takeWhile (fun x => isAllowedInId U x.r)))))
    ∧ (matchLexemeToKeyword.lookup
          (c :: (xs.takeWhile (fun x => isAllowedInId U x.r)).map Item.r) = none →
        Scanner.Scan U ⟨⟨Item.valid c :: xs, l⟩, line, col⟩
          = .ret (some ⟨.Identifier, c :: (xs.takeWhile (fun x => isAllowedInId U x.r)).map Item.r,
                line, none⟩) none
              (afterPeek (xs.dropWhile (fun x => isAllowedInId U x.r)) line
                (colAfterPeeked ((col + 1) % u32)
                  (xs.takeWhile (fun x => isAllowedInId U x.r))))) := by
  refine ⟨(List.takeWhile_append_dropWhile _ xs).symm, ?_, ?_, ?_, ?_⟩
  · intro x hx
    exact List.mem_takeWhile_imp (p := fun y : Item => isAllowedInId U y.r) hx
  · intro x hx
    have := List.head?_dropWhile_not (fun x => isAllowedInId U x.r) xs
    rw [Option.mem_def.1 hx] at this
    simpa using this
  · intro kw hkw
    rw [Scanner.scan_letter U c xs l line col hl hd, idResult, hkw]
    rfl
  · intro hkw
    rw [Scanner.scan_letter U c xs l line col hl hd, idResult, hkw]
    rfl

/-! ## Tokens and errors: what a call can return -/

namespace Scanner

theorem tok_wellFormed (sc : Scanner) (tt : TokenType) (h1 : tt ≠ .String) (h2 : tt ≠ .Number) :
    (sc.tok tt).wellFormed :=
  ⟨fun h => absurd h h1, fun h => absurd h h2, fun _ _ => rfl, fun h => absurd rfl h⟩

theorem regular_tok (sc sc' : Scanner) (tt : TokenType) (h1 : tt ≠ .String)
    (h2 : tt ≠ .Number) : Regular (.ret (some (sc.tok tt)) none sc') :=
  tok_wellFormed sc tt h1 h2

theorem regular_eof (sc : Scanner) : Regular (.ret none (some .EOF) sc) := trivial

theorem matchBang_regular (xs : List Item) (l : Option Item) (line col : Nat) :
    Regular (matchBang ⟨⟨xs, l⟩, line, col⟩) := by
  cases xs with
  | nil =>
    simp only [matchBang, peek_nil, ne_eq, reduceCtorEq, not_false_eq_true, if_true]
    exact regular_eof _
  | cons y ys =>
    by_cases h : y.r = '='
    · simp only [matchBang, peek_cons, advance_cons, ne_eq, not_true_eq_false, if_false, h,
        if_true]
      exact regular_tok _ _ _ (by decide) (by decide)
    · simp only [matchBang, peek_cons, ne_eq, not_true_eq_false, if_false, h]
      exact regular_tok _ _ _ (by decide) (by decide)

theorem matchLess_regular (xs : List Item) (l : Option Item) (line col : Nat) :
    Regular (matchLess ⟨⟨xs, l⟩, line, col⟩) := by
  cases xs with
  | nil =>
    simp only [matchLess, peek_nil, ne_eq, reduceCtorEq, not_false_eq_true, if_true]
    exact regular_eof _
  | cons y ys =>
    by_cases h : y.r = '='
    · simp only [matchLess, peek_cons, advance_cons, ne_eq, not_true_eq_false, if_false, h,
        if_true]
      exact regular_tok _ _ _ (by decide) (by decide)
    · simp only [matchLess, peek_cons, ne_eq, not_true_eq_false, if_false, h]
      exact regular_tok _ _ _ (by decide) (by decide)

theorem matchGreater_regular (xs : List Item) (l : Option Item) (line col : Nat) :
    Regular (matchGreater ⟨⟨xs, l⟩, line, col⟩) := by
  cases xs with
  | nil =>
    simp only [matchGreater, peek_nil, ne_eq, reduceCtorEq, not_false_eq_true, if_true]
    exact regular_eof _
  | cons y ys =>
    by_cases h : y.r = '='
    · simp only [matchGreater, peek_cons, advance_cons, ne_eq, not_true_eq_false, if_false, h,
        if_true]
      exact regular_tok _ _ _ (by decide) (by decide)
    · simp only [matchGreater, peek_cons, ne_eq, not_true_eq_false, if_false, h]
      exact regular_tok _ _ _ (by decide) (by decide)

theorem matchEqual_regular (xs : List Item) (l : Option Item) (line col : Nat) :
    Regular (matchEqual ⟨⟨xs, l⟩, line, col⟩) := by
  cases xs with
  | nil =>
    simp only [matchEqual, peek_nil, ne_eq, reduceCtorEq, not_false_eq_true, if_true]
    exact regular_eof _
  | cons y ys =>
    by_cases h : y.r = '='
    · simp only [matchEqual, peek_cons, advance_cons, ne_eq, not_true_eq_false, if_false, h,
        if_true]
      exact regular_tok _ _ _ (by decide) (by decide)
    · by_cases h2 : y.r = '<'
      · simp only [matchEqual, peek_cons, advance_cons, ne_eq, not_true_eq_false, if_false, h,
          h2, if_true]
        exact regular_tok _ _ _ (by decide) (by decide)
      · simp only [matchEqual, peek_cons, ne_eq, not_true_eq_false, if_false, h, h2,
          Bool.false_eq_true]
        exact regular_tok _ _ _ (by decide) (by decide)

theorem comment_wellFormed (sc : Scanner) (text : List Char) : (sc.comment text).wellFormed :=
  ⟨(fun h => by cases h), (fun h => by cases h), fun _ _ => rfl, fun _ => Or.inr rfl⟩

theorem matchSlash_regular (xs : List Item) (l : Option Item) (line col : Nat) :
    Regular (matchSlash ⟨⟨xs, l⟩, line, col⟩) := by
  cases xs with
  | nil =>
    simp only [matchSlash, peek_nil, ne_eq, reduceCtorEq, not_false_eq_true, if_true]
    exact regular_eof _
  | cons y ys =>
    by_cases h : y.r = '/'
    · simp only [matchSlash, peek_cons, advance_cons, ne_eq, not_true_eq_false, if_false, h,
        if_true]
      by_cases hn : Item.valid '\n' ∈ ys
      · obtain ⟨t, rest, rfl, ht⟩ := List.eq_append_cons_of_mem hn
        rw [commentLoop_newline t rest ht _ _ _ _ _ (by simp; omega)]
        exact comment_wellFormed ⟨⟨[], none⟩, line, 0⟩ _
      · rw [commentLoop_eof ys hn _ _ _ _ _ (by simp)]
        exact comment_wellFormed ⟨⟨[], none⟩, line, 0⟩ _
    · simp only [matchSlash, peek_cons, ne_eq, not_true_eq_false, if_false, h]
      exact regular_tok _ _ _ (by decide) (by decide)

theorem numberResult_regular (text : List Char) (sc : Scanner) :
    Regular (numberResult text sc) := by
  unfold numberResult
  cases ParseFloat text with
  | error err => trivial
  | ok f =>
    exact ⟨(fun h => by cases h), fun _ => ⟨f, rfl⟩, fun _ h => absurd rfl h,
      fun h => absurd rfl h⟩

theorem keyword_kinds : ∀ p ∈ matchLexemeToKeyword,
    p.2 ≠ TokenType.String ∧ p.2 ≠ TokenType.Number ∧ p.2 ≠ TokenType.Identifier := by
  decide

theorem idResult_regular (text : List Char) (sc : Scanner) :
    Regular (idResult text sc) := by
  unfold idResult
  cases h : matchLexemeToKeyword.lookup text with
  | none =>
    exact ⟨(fun h => by cases h), (fun h => by cases h), fun _ _ => rfl, fun _ => Or.inl rfl⟩
  | some kw =>
    have hk := keyword_kinds _ (lookup_mem text kw _ h)
    exact regular_tok _ _ _ hk.1 hk.2.1

theorem matchNumberLiteral_regular (U : UnicodeTables) (xs : List Item) (l : Option Item)
    (line col : Nat) (first : Char) :
    Regular (matchNumberLiteral U ⟨⟨xs, l⟩, line, col⟩ first) := by
  rw [matchNumberLiteral, munch_numbers_spec U xs _ _ _ _ _ _ (by simp)]
  exact numberResult_regular _ _

theorem matchIdOrKeyword_regular (U : UnicodeTables) (xs : List Item) (l : Option Item)
    (line col : Nat) (first : Char) :
    Regular (matchIdOrKeyword U ⟨⟨xs, l⟩, line, col⟩ first) := by
  rw [matchIdOrKeyword, idLoop_spec U xs _ _ _ _ _ (by simp)]
  exact idResult_regular _ _

theorem punctuation_kinds : ∀ p ∈ punctuation,
    p.2 ≠ TokenType.String ∧ p.2 ≠ TokenType.Number := by
  decide

theorem unrecognized_of_punct {U : UnicodeTables} {c : Char} {tt : TokenType}
    (h : punctuation.lookup c = some tt) : ¬ unrecognized U c := by
  intro hu; rw [hu.1] at h; exact absurd h (by simp)

/-- What the `switch` of `Scan` yields on a rune that is not blank: the error for an
unrecognized rune, the error for a string without closing quote, or no lexical error. -/
theorem scanDispatch_outcome (U : UnicodeTables) (c : Char) (xs : List Item) (l : Option Item)
    (line col : Nat) (hb : ¬ (c = '\n' ∨ c = '\r' ∨ c = '\t' ∨ c = ' ')) :
    (unrecognized U c ∧ scanDispatch U c ⟨⟨xs, l⟩, line, col⟩
        = .ret none (some (.Scanner ⟨line, col, "unexpected symbol: ".toList ++ [c]⟩))
            ⟨⟨xs, l⟩, line, col⟩)
    ∨ (c = quote ∧ Item.valid quote ∉ xs ∧ scanDispatch U c ⟨⟨xs, l⟩, line, col⟩
        = .ret none
            (some (.Scanner ⟨lineAfter line xs, colAfter col xs, "unterminated string".toList⟩))
            ⟨⟨[], none⟩, lineAfter line xs, colAfter col xs⟩)
    ∨ (¬ unrecognized U c ∧ ¬ (c = quote ∧ Item.valid quote ∉ xs)
        ∧ Regular (scanDispatch U c ⟨⟨xs, l⟩, line, col⟩)) := by
  have hq : punctuation.lookup quote = none := by decide
  refine scanDispatch_cases U c ⟨⟨xs, l⟩, line, col⟩
    (fun o => (unrecognized U c ∧ o
        = .ret none (some (.Scanner ⟨line, col, "unexpected symbol: ".toList ++ [c]⟩))
            ⟨⟨xs, l⟩, line, col⟩)
      ∨ (c = quote ∧ Item.valid quote ∉ xs ∧ o
        = .ret none
            (some (.Scanner ⟨lineAfter line xs, colAfter col xs, "unterminated string".toList⟩))
            ⟨⟨[], none⟩, lineAfter line xs, colAfter col xs⟩)
      ∨ (¬ unrecognized U c ∧ ¬ (c = quote ∧ Item.valid quote ∉ xs) ∧ Regular o))
    ?_ ?_ ?_ ?_ ?_ ?_ ?_ ?_ ?_ ?_ ?_
  · intro tt h
    have hk := punctuation_kinds _ (lookup_mem c tt _ h)
    refine Or.inr (Or.inr ⟨unrecognized_of_punct h, ?_, regular_tok _ _ _ hk.1 hk.2⟩)
    rintro ⟨rfl, -⟩; rw [hq] at h; exact absurd h (by simp)
  · intro h
    exact Or.inr (Or.inr ⟨fun hu => hu.2.1 h, fun hc => absurd (h ▸ hc.1) (by decide),
      matchSlash_regular _ _ _ _⟩)
  · intro h
    exact Or.inr (Or.inr ⟨fun hu => hu.2.2.1 h, fun hc => absurd (h ▸ hc.1) (by decide),
      matchBang_regular _ _ _ _⟩)
  · intro h
    exact Or.inr (Or.inr ⟨fun hu => hu.2.2.2.1 h, fun hc => absurd (h ▸ hc.1) (by decide),
      matchEqual_regular _ _ _ _⟩)
  · intro h
    exact Or.inr (Or.inr ⟨fun hu => hu.2.2.2.2.1 h, fun hc => absurd (h ▸ hc.1) (by decide),
      matchLess_regular _ _ _ _⟩)
  · intro h
    exact Or.inr (Or.inr ⟨fun hu => hu.2.2.2.2.2.1 h, fun hc => absurd (h ▸ hc.1) (by decide),
      matchGreater_regular _ _ _ _⟩)
  · intro h
    by_cases hm : Item.valid quote ∈ xs
    · refine Or.inr (Or.inr ⟨fun hu => hu.2.2.2.2.2.2.1 h, fun hc => hc.2 hm, ?_⟩)
      obtain ⟨s, rest, rfl, hs⟩ := List.eq_append_cons_of_mem hm
      rw [matchStringLiteral, stringLoop_closed s rest hs _ _ _ _ _ (by simp; omega)]
      exact ⟨fun _ => ⟨_, rfl⟩, (fun h => by cases h), fun h _ => absurd rfl h,
        fun h => absurd rfl h⟩
    · refine Or.inr (Or.inl ⟨h, hm, ?_⟩)
      rw [matchStringLiteral, stringLoop_open xs hm _ _ _ _ _ (by simp)]
  · intro h
    exact Or.inr (Or.inr ⟨fun hu => by rw [hu.2.2.2.2.2.2.2.2.2.2.2.1] at h; exact absurd h (by simp),
      fun hc => (isDigit_special U c h).2.2.2.2.2.2.2.2.2.2.2.2.2.2.2.1 hc.1,
      matchNumberLiteral_regular U _ _ _ _ _⟩)
  · intro h _
    exact Or.inr (Or.inr ⟨fun hu => by rw [hu.2.2.2.2.2.2.2.2.2.2.2.2] at h; exact absurd h (by simp),
      fun hc => (isLetter_special U c h).2.2.2.2.2.2.2.2.2.2.2.2.2.2.2.1 hc.1,
      matchIdOrKeyword_regular U _ _ _ _ _⟩)
  · intro _ _ _ _ hu
    exact Or.inl ⟨hu, rfl⟩
  · intro h
    exact absurd h hb

end Scanner

namespace Scanner

theorem not_blank_char (x : Item) (h : isBlank x = false) :
    ¬ (x.r = '\n' ∨ x.r = '\r' ∨ x.r = '\t' ∨ x.r = ' ') := by
  obtain ⟨h1, h2, h3, h4⟩ := (isBlank_false_iff x).1 h
  rintro (h | h | h | h) <;> contradiction

/-- `Scan` skips the leading blank items; it then signals the end of input, or runs its
`switch` on the first item that is not blank. -/
theorem scan_classify (U : UnicodeTables) (buf : List Item) (l : Option Item)
    (line col : Nat) :
    (buf.dropWhile isBlank = [] ∧ Scan U ⟨⟨buf, l⟩, line, col⟩
        = .ret (some Token.zero) (some .EOF)
            ⟨⟨[], none⟩, lineAfter line (buf.takeWhile isBlank),
              colBlanks col (buf.takeWhile isBlank)⟩)
    ∨ (∃ x xs, buf.dropWhile isBlank = x :: xs ∧ isBlank x = false
        ∧ Scan U ⟨⟨buf, l⟩, line, col⟩
          = scanDispatch U x.r ⟨⟨xs, some x⟩, lineAfter line (buf.takeWhile isBlank),
              colAdvance x (colBlanks col (buf.takeWhile isBlank))⟩) := by
  have hws : ∀ x ∈ buf.takeWhile isBlank, isBlank x = true :=
    fun x hx => List.mem_takeWhile_imp hx
  have hskip := scan_skip U (buf.takeWhile isBlank) hws (buf.dropWhile isBlank) l none line col
  rw [List.takeWhile_append_dropWhile] at hskip
  cases hd : buf.dropWhile isBlank with
  | nil =>
    left
    rw [hd] at hskip
    exact ⟨rfl, by rw [hskip, scan_nil]⟩
  | cons x xs =>
    right
    have hx : isBlank x = false := by
      have := List.head?_dropWhile_not isBlank buf
      rw [hd] at this
      simpa using this
    rw [hd] at hskip
    exact ⟨x, xs, rfl, hx, by rw [hskip, scan_dispatch U x xs none _ _ hx]⟩

end Scanner

/-- C15: every token that `Scan` returns without error has a value exactly when its kind is
`String` or `Number`, the value is a text for `String` and a `float64` for `Number`, and the
lexeme is non-empty only when the kind is `Identifier` or `Comment`. -/
theorem returned_token_fields (U : UnicodeTables) (sc sc' : Scanner) (t : Token)
    (h : Scanner.Scan U sc = .ret (some t) none sc') :
    (t.Value ≠ none ↔ t.Typ = .String ∨ t.Typ = .Number)
    ∧ (t.Typ = .String → ∃ s, t.Value = some (.str s))
    ∧ (t.Typ = .Number → ∃ f, t.Value = some (.num f))
    ∧ (t.Lexeme ≠ [] → t.Typ = .Identifier ∨ t.Typ = .Comment) := by
  have hw : t.wellFormed := by
    obtain ⟨⟨buf, l⟩, line, col⟩ := sc
    rcases Scanner.scan_classify U buf l line col with ⟨-, h1⟩ | ⟨x, xs, -, hx, h1⟩
    · rw [h1] at h; cases h
    · rw [h1] at h
      rcases Scanner.scanDispatch_outcome U x.r xs (some x) _ _ (Scanner.not_blank_char x hx)
        with ⟨-, h2⟩ | ⟨-, -, h2⟩ | ⟨-, -, h2⟩
      · rw [h2] at h; cases h
      · rw [h2] at h; cases h
      · rw [h] at h2; exact h2
  obtain ⟨h1, h2, h3, h4⟩ := hw
  refine ⟨⟨fun hv => ?_, fun hk => ?_⟩, h1, h2, h4⟩
  · by_contra hc
    simp only [not_or] at hc
    exact hv (h3 hc.1 hc.2)
  · rcases hk with hk | hk
    · obtain ⟨s, hs⟩ := h1 hk; rw [hs]; simp
    · obtain ⟨f, hf⟩ := h2 hk; rw [hf]; simp

/-- C16: `Scan` returns a `ScannerError` exactly when the first item after the leading
whitespace is an unrecognized rune, with the message `unexpected symbol: ` followed by that
rune, or is a quote with no later quote in the input, with the message `unterminated
string`. The first part says that every `ScannerError` returned has one of these two causes
and its message, and comes without a token; the other two parts say that either cause
makes the call return that error. -/
theorem scanner_error_iff (U : UnicodeTables) (buf : List Item) (l : Option Item)
    (line col : Nat) :
    (∀ tok e sc', Scanner.Scan U ⟨⟨buf, l⟩, line, col⟩ = .ret tok (some (.Scanner e)) sc' →
      tok = none ∧ ∃ x xs, buf.dropWhile isBlank = x :: xs
        ∧ ((unrecognized U x.r ∧ e.Message = "unexpected symbol: ".toList ++ [x.r])
          ∨ (x = .valid quote ∧ Item.valid quote ∉ xs
              ∧ e.Message = "unterminated string".toList)))
    ∧ (∀ x xs, buf.dropWhile isBlank = x :: xs → unrecognized U x.r →
        Scanner.Scan U ⟨⟨buf, l⟩, line, col⟩
          = .ret none
              (some (.Scanner ⟨lineAfter line (buf.takeWhile isBlank),
                colAdvance x (colBlanks col (buf.takeWhile isBlank)),
                "unexpected symbol: ".toList ++ [x.r]⟩))
              ⟨⟨xs, some x⟩, lineAfter line (buf.takeWhile isBlank),
                colAdvance x (colBlanks col (buf.takeWhile isBlank))⟩)
    ∧ (∀ xs, buf.dropWhile isBlank = .valid quote :: xs → Item.valid quote ∉ xs →
        Scanner.Scan U ⟨⟨buf, l⟩, line, col⟩
          = .ret none
              (some (.Scanner ⟨lineAfter (lineAfter line (buf.takeWhile isBlank)) xs,
                colAfter (colAdvance (.valid quote) (colBlanks col (buf.takeWhile isBlank))) xs,
                "unterminated string".toList⟩))
              ⟨⟨[], none⟩, lineAfter (lineAfter line (buf.takeWhile isBlank)) xs,
                colAfter (colAdvance (.valid quote) (colBlanks col (buf.takeWhile isBlank))) xs⟩) := by
  refine ⟨?_, ?_, ?_⟩
  · intro tok e sc' h
    rcases Scanner.scan_classify U buf l line col with ⟨-, h1⟩ | ⟨x, xs, hd, hx, h1⟩
    · rw [h1] at h; cases h
    · rw [h1] at h
      rcases Scanner.scanDispatch_outcome U x.r xs (some x) _ _ (Scanner.not_blank_char x hx)
        with ⟨hu, h2⟩ | ⟨hq, hn, h2⟩ | ⟨-, -, h2⟩
      · rw [h2] at h
        simp only [Outcome.ret.injEq, Option.some.injEq, Error.Scanner.injEq] at h
        obtain ⟨h3, h4, -⟩ := h
        exact ⟨h3.symm, x, xs, hd, Or.inl ⟨hu, by rw [← h4]⟩⟩
      · rw [h2] at h
        simp only [Outcome.ret.injEq, Option.some.injEq, Error.Scanner.injEq] at h
        obtain ⟨h3, h4, -⟩ := h
        exact ⟨h3.symm, x, xs, hd,
          Or.inr ⟨(r_eq_iff x quote (by decide)).1 hq, hn, by rw [← h4]⟩⟩
      · rw [h] at h2; exact absurd h2 (by simp [Regular])
  · intro x xs hd hu
    rcases Scanner.scan_classify U buf l line col with ⟨h0, -⟩ | ⟨x', xs', hd', hx, h1⟩
    · rw [h0] at hd; cases hd
    · rw [hd] at hd'
      simp only [List.cons.injEq] at hd'
      obtain ⟨rfl, rfl⟩ := hd'
      rw [h1, Scanner.scanDispatch_other U x.r _ hu]
      rfl
  · intro xs hd hn
    rcases Scanner.scan_classify U buf l line col with ⟨h0, -⟩ | ⟨x', xs', hd', hx, h1⟩
    · rw [h0] at hd; cases hd
    · rw [hd] at hd'
      simp only [List.cons.injEq] at hd'
      obtain ⟨rfl, rfl⟩ := hd'
      rw [h1]
      rcases Scanner.scanDispatch_outcome U (Item.valid quote).r xs (some (.valid quote)) _ _
        (Scanner.not_blank_char _ hx) with ⟨hu, -⟩ | ⟨-, -, h2⟩ | ⟨-, h3, -⟩
      · exact absurd rfl hu.2.2.2.2.2.2.1
      · rw [h2]
      · exact absurd ⟨rfl, hn⟩ h3

/-! ## The display of tokens (token.go) -/

namespace Scanner

/-- The fields of a token that `Scan` returns without error fit its kind. -/
theorem scan_token_wellFormed (U : UnicodeTables) (sc sc' : Scanner) (t : Token)
    (h : Scan U sc = .ret (some t) none sc') : t.wellFormed := by
  obtain ⟨⟨buf, l⟩, line, col⟩ := sc
  rcases scan_classify U buf l line col with ⟨-, h1⟩ | ⟨x, xs, -, hx, h1⟩
  · rw [h1] at h; cases h
  · rw [h1] at h
    rcases scanDispatch_outcome U x.r xs (some x) _ _ (not_blank_char x hx)
      with ⟨-, h2⟩ | ⟨-, -, h2⟩ | ⟨-, -, h2⟩
    · rw [h2] at h; cases h
    · rw [h2] at h; cases h
    · rw [h] at h2; exact h2

end Scanner

theorem lookup_name_none_iff (tt : TokenType) :
    tokenTypeTostring.lookup tt = none ↔ tt = .False := by
  cases tt <;> decide

theorem String_False (fmtFloat : Nat → List Char) (t : Token) (h : t.Typ = .False) :
    t.String fmtFloat = .panic "unable to match TokenType to name: 36".toList := by
  obtain ⟨tt, lex, line, v⟩ := t
  simp only at h
  subst h
  have hl : tokenTypeTostring.lookup TokenType.False = none := by decide
  simp only [Token.String, hl]
  decide

theorem String_ok (fmtFloat : Nat → List Char) (t : Token) (h : t.Typ ≠ .False)
    (hw : t.wellFormed) : (t.String fmtFloat).isOk = true := by
  obtain ⟨tt, lex, line, v⟩ := t
  obtain ⟨h1, h2, -, -⟩ := hw
  cases tt
  case False => exact absurd rfl h
  case String => obtain ⟨s, hs⟩ := h1 rfl; simp only at hs; subst hs; rfl
  case Number => obtain ⟨f, hf⟩ := h2 rfl; simp only at hf; subst hf; rfl
  all_goals rfl


/-- C17: the lookup in `tokenTypeTostring` fails for the kind `False` and for no other kind;
`Token.String` panics on that lookup for every token of kind `False` and returns for every
token of another kind whose fields fit the kind. On a token that `Scan` returned,
`Token.String` returns exactly when the kind is not `False`, and scanning the keyword
`false` does return a token of kind `False`. -/
theorem token_String_fails_on_False_only (fmtFloat : Nat → List Char) :
    (∀ tt, tokenTypeTostring.lookup tt = none ↔ tt = .False)
    ∧ (∀ t : Token, t.Typ = .False →
        t.String fmtFloat = .panic "unable to match TokenType to name: 36".toList)
    ∧ (∀ t : Token, t.Typ ≠ .False → t.wellFormed → (t.String fmtFloat).isOk = true)
    ∧ (∀ (U : UnicodeTables) (sc sc' : Scanner) (t : Token),
        Scanner.Scan U sc = .ret (some t) none sc' →
          ((t.String fmtFloat).isOk = true ↔ t.Typ ≠ .False))
    ∧ (∀ U : UnicodeTables, Scanner.Scan U (NewScanner (runes ['f', 'a', 'l', 's', 'e']))
        = .ret (some ⟨.False, [], 1, none⟩) none ⟨⟨[], none⟩, 1, 5⟩) := by
  refine ⟨lookup_name_none_iff, String_False fmtFloat, String_ok fmtFloat, ?_, fun U => rfl⟩
  intro U sc sc' t h
  constructor
  · intro hok hF
    rw [String_False fmtFloat t hF] at hok
    exact absurd hok (by decide)
  · intro hF
    exact String_ok fmtFloat t hF (Scanner.scan_token_wellFormed U sc sc' t h)

/-- C17 on the keyword `true`: `Scan` returns the token of kind `True`, and `Token.String`
returns on it. -/
theorem token_String_fails_on_False_only_witness :
    Scanner.Scan latin1Only (NewScanner (runes ['t', 'r', 'u', 'e']))
        = .ret (some ⟨.True, [], 1, none⟩) none ⟨⟨[], none⟩, 1, 4⟩
    ∧ (((⟨.True, [], 1, none⟩ : Token).String (fun _ => [])).isOk = true
        ↔ (⟨.True, [], 1, none⟩ : Token).Typ ≠ .False) :=
  ⟨by decide,
    (token_String_fails_on_False_only (fun _ => [])).2.2.2.1 latin1Only
      (NewScanner (runes ['t', 'r', 'u', 'e'])) ⟨⟨[], none⟩, 1, 4⟩ ⟨.True, [], 1, none⟩ (by decide)⟩

/-! ## Progress of the driver loop -/

namespace Scanner

/-- Every call leaves a scanner behind, and what is pending afterwards is shorter than
before unless nothing was pending. -/
theorem scanLoop_consumes (U : UnicodeTables) (buf : List Item) :
    ∀ (n : Nat) (l : Option Item) (line col : Nat), buf.length < n →
      ∃ sc', (scanLoop U n ⟨⟨buf, l⟩, line, col⟩).scanner? = some sc'
        ∧ sc'.input.buf.length ≤ buf.length
        ∧ (buf ≠ [] → sc'.input.buf.length < buf.length) := by
  induction buf with
  | nil =>
    intro n l line col hn
    obtain ⟨m, rfl⟩ : ∃ m, n = m + 1 := ⟨n - 1, by simp at hn; omega⟩
    rw [scanLoop_nil]
    exact ⟨_, rfl, Nat.le_refl _, fun h => absurd rfl h⟩
  | cons x xs ih =>
    intro n l line col hn
    obtain ⟨m, rfl⟩ : ∃ m, n = m + 1 := ⟨n - 1, by simp at hn; omega⟩
    have hm : xs.length < m := by simp at hn; omega
    by_cases hb : isBlank x = true
    · by_cases hx : x = .valid '\n'
      · subst hx
        rw [scanLoop_newline]
        obtain ⟨sc', h1, h2, -⟩ := ih m (some (.valid '\n')) ((line + 1) % u32) 1 hm
        exact ⟨sc', h1, by simp only [List.length_cons]; omega,
          fun _ => by simp only [List.length_cons]; omega⟩
      · rw [scanLoop_blank U m x xs l line col hb hx]
        obtain ⟨sc', h1, h2, -⟩ := ih m (some x) line (colAdvance x col) hm
        exact ⟨sc', h1, by simp only [List.length_cons]; omega,
          fun _ => by simp only [List.length_cons]; omega⟩
    · have hb' : isBlank x = false := by simpa using hb
      rw [scanLoop_dispatch U m x xs l line col hb']
      obtain ⟨c, sc', h1, h2, -, -⟩ := scanDispatch_effect U x.r xs (some x) line
        (colAdvance x col)
      have h3 : sc'.input.buf.length ≤ xs.length := by
        have := congrArg List.length h2
        simp only [List.length_append] at this
        omega
      exact ⟨sc', h1, by simp only [List.length_cons]; omega,
        fun _ => by simp only [List.length_cons]; omega⟩

theorem scan_consumes (U : UnicodeTables) (sc : Scanner) :
    ∃ sc', (Scan U sc).scanner? = some sc'
      ∧ sc'.input.buf.length ≤ sc.input.buf.length
      ∧ (sc.input.buf ≠ [] → sc'.input.buf.length < sc.input.buf.length) := by
  obtain ⟨⟨buf, l⟩, line, col⟩ := sc
  exact scanLoop_consumes U buf _ l line col (by simp)

/-- A call that returns a token or an error other than `io.EOF` has consumed at least one
item of the input. -/
theorem scan_progress (U : UnicodeTables) (sc sc' : Scanner) (tok : Option Token)
    (err : Option Error) (h : Scan U sc = .ret tok err sc') (he : err ≠ some .EOF) :
    sc'.input.buf.length < sc.input.buf.length := by
  obtain ⟨s, h1, -, h3⟩ := scan_consumes U sc
  rw [h] at h1
  simp only [Outcome.scanner?, Option.some.injEq] at h1
  subst h1
  apply h3
  intro hnil
  obtain ⟨⟨buf, l⟩, line, col⟩ := sc
  simp only at hnil
  subst hnil
  rw [scan_nil] at h
  simp only [Outcome.ret.injEq] at h
  exact he h.2.1.symm

end Scanner

/-- The driver loop reaches `io.EOF` within one call more than there are pending items,
unless a call panics. -/
theorem driver_reaches_eof (U : UnicodeTables) (k : Nat) :
    ∀ sc0 : Scanner, sc0.input.buf.length < k →
      (∀ j sc, afterCalls U j sc0 = some sc → ∀ e s, Scanner.Scan U sc ≠ .panic e s) →
      signalsEOF U k sc0 = true := by
  induction k with
  | zero => intro sc0 h; exact absurd h (Nat.not_lt_zero _)
  | succ k ih =>
    intro sc0 hlen hnp
    rw [signalsEOF]
    cases hs : Scanner.Scan U sc0 with
    | outOfFuel =>
      obtain ⟨s, h1, -⟩ := Scanner.scan_consumes U sc0
      rw [hs] at h1; cases h1
    | panic e s => exact absurd hs (hnp 0 sc0 rfl e s)
    | ret tok err sc' =>
      by_cases he : err = some .EOF
      · subst he; rfl
      · have hp := Scanner.scan_progress U sc0 sc' tok err hs he
        have hrec : signalsEOF U k sc' = true := by
          apply ih sc' (by omega)
          intro j sc hj
          apply hnp (j + 1) sc
          rw [afterCalls, hs]
          exact hj
        cases err with
        | none => simpa using hrec
        | some e =>
          cases e with
          | EOF => exact absurd rfl he
          | ErrInvalidUnreadRune => simpa using hrec
          | Scanner e => simpa using hrec

/-! ## The driver loop on particular inputs -/

namespace Scanner

/-- `Scan` on a single rune that `unicode.IsDigit` accepts and `strconv.ParseFloat` rejects. -/
theorem scan_rejected_digit (U : UnicodeTables) (c : Char) (l : Option Item)
    (line col : Nat) (h : IsDigit U c = true) (hc : ¬ ('0' ≤ c ∧ c ≤ '9')) :
    Scan U ⟨⟨[.valid c], l⟩, line, col⟩
      = .panic .ErrSyntax ⟨⟨[], none⟩, line, (col + 1) % u32⟩ := by
  have hdot : c ≠ '.' := (isDigit_special U c h).2.2.2.2.2.1
  rw [scan_digit U c [] l line col h]
  have hs : numberSplit U false [] = ([], []) := rfl
  simp only [hs, List.map_nil]
  simp [numberResult, ParseFloat, readDecimal, digitVal, hc, hdot, afterPeek, colAfter]

end Scanner

/-- C14 (code at the failing input): on the one-rune input `c`, where `unicode.IsDigit`
accepts `c` and `c` is not in `0`..`9`, the first `Scan` panics, so the driver loop signals
`io.EOF` within no number of calls and no state follows that call. -/
theorem driver_stopped_by_panic (U : UnicodeTables) (c : Char) (k : Nat)
    (h : IsDigit U c = true) (hc : ¬ ('0' ≤ c ∧ c ≤ '9')) :
    signalsEOF U k (NewScanner [.valid c]) = false
    ∧ afterCalls U (k + 1) (NewScanner [.valid c]) = none := by
  have hp := Scanner.scan_rejected_digit U c none 1 0 h hc
  constructor
  · cases k with
    | zero => rfl
    | succ k => rw [signalsEOF, NewScanner, hp]
  · rw [afterCalls, NewScanner, hp]

/-- C14 on U+0663 (ARABIC-INDIC DIGIT THREE), with that rune in `unicode.Digit`: two calls
of the driver loop do not reach `io.EOF`. -/
theorem driver_stopped_by_panic_witness :
    IsDigit (tablesWithDigit (Char.ofNat 0x663)) (Char.ofNat 0x663) = true
    ∧ ¬ ('0' ≤ Char.ofNat 0x663 ∧ Char.ofNat 0x663 ≤ '9')
    ∧ signalsEOF (tablesWithDigit (Char.ofNat 0x663)) 2 (NewScanner [.valid (Char.ofNat 0x663)])
        = false :=
  ⟨by decide, by decide,
    (driver_stopped_by_panic (tablesWithDigit (Char.ofNat 0x663)) (Char.ofNat 0x663) 2
      (by decide) (by decide)).1⟩

theorem afterCalls_succ (U : UnicodeTables) (n : Nat) :
    ∀ (sc0 sc2 : Scanner), afterCalls U (n + 1) sc0 = some sc2 →
      ∃ sc tok err, afterCalls U n sc0 = some sc ∧ Scanner.Scan U sc = .ret tok err sc2 := by
  induction n with
  | zero =>
    intro sc0 sc2 h
    rw [afterCalls] at h
    cases hs : Scanner.Scan U sc0 with
    | outOfFuel => rw [hs] at h; simp at h
    | panic e s => rw [hs] at h; simp at h
    | ret tok err s =>
      rw [hs] at h
      simp only [afterCalls, Option.some.injEq] at h
      subst h
      exact ⟨sc0, tok, err, rfl, hs⟩
  | succ n ih =>
    intro sc0 sc2 h
    rw [afterCalls] at h
    cases hs : Scanner.Scan U sc0 with
    | outOfFuel => rw [hs] at h; simp at h
    | panic e s => rw [hs] at h; simp at h
    | ret tok err s =>
      rw [hs] at h
      obtain ⟨sc, tok', err', h1, h2⟩ := ih s sc2 h
      refine ⟨sc, tok', err', ?_, h2⟩
      rw [afterCalls, hs]
      exact h1

theorem newlines_append (xs ys : List Item) :
    newlines (xs ++ ys) = newlines xs + newlines ys := by
  simp [newlines]

/-- C19 (as amended): for every input with fewer than 2^32 - 1 newlines and every number of
`Scan` calls on a new scanner that all returned, what is pending after the calls is a suffix
of the input, Line is 1 plus the number of newlines among the items consumed before that
suffix, and Line after one more call that returns is not smaller. -/
theorem line_counts_consumed_newlines (U : UnicodeTables) (input : List Item) (n : Nat)
    (sc : Scanner) (hb : newlines input < u32 - 1)
    (h : afterCalls U n (NewScanner input) = some sc) :
    input.drop (input.length - sc.input.buf.length) = sc.input.buf
    ∧ sc.Line = 1 + newlines (input.take (input.length - sc.input.buf.length))
    ∧ ∀ sc2, afterCalls U (n + 1) (NewScanner input) = some sc2 → sc.Line ≤ sc2.Line := by
  have h1 : (NewScanner input).Line < u32 := by simp [NewScanner, u32]
  obtain ⟨pre, h2, h3⟩ := afterCalls_sync U n _ sc h1 h
  have hin : input = pre ++ sc.input.buf := h2
  have hlen : input.length - sc.input.buf.length = pre.length := by
    rw [hin, List.length_append]; omega
  have hnl : newlines input = newlines pre + newlines sc.input.buf := by
    rw [hin, newlines_append]
  have hline : sc.Line = 1 + newlines pre := by
    rw [h3]
    show (1 + newlines pre) % u32 = 1 + newlines pre
    apply Nat.mod_eq_of_lt
    simp only [u32] at hb ⊢
    omega
  have htake : input.take pre.length = pre := by
    conv_lhs => rw [hin]
    exact List.take_left _ _
  have hdrop : input.drop pre.length = sc.input.buf := by
    conv_lhs => rw [hin]
    exact List.drop_left _ _
  refine ⟨by rw [hlen, hdrop], by rw [hlen, htake, hline], ?_⟩
  intro sc2 h4
  obtain ⟨sc1, tok, err, h5, h6⟩ := afterCalls_succ U n _ sc2 h4
  rw [h] at h5
  simp only [Option.some.injEq] at h5
  subst h5
  have hl : sc.Line < u32 := by rw [h3]; exact Nat.mod_lt _ (by decide)
  obtain ⟨c, s, h7, h8, h9, -⟩ := Scanner.scan_effect U sc hl
  rw [h6] at h7
  simp only [Outcome.scanner?, Option.some.injEq] at h7
  subst h7
  rw [h9]
  have hc : newlines sc.input.buf = newlines c + newlines sc2.input.buf := by
    rw [h8, newlines_append]
  have : (sc.Line + newlines c) % u32 = sc.Line + newlines c := by
    apply Nat.mod_eq_of_lt
    simp only [u32] at hb ⊢
    omega
  omega

/-- C19 on `a`, newline, `+`: after two calls everything is consumed and Line is 2. -/
theorem line_counts_consumed_newlines_witness :
    newlines (runes ['a', '\n', '+']) < u32 - 1
    ∧ afterCalls latin1Only 2 (NewScanner (runes ['a', '\n', '+']))
        = some ⟨⟨[], some (.valid '+')⟩, 2, 2⟩
    ∧ (2 : Nat) = 1 + newlines ((runes ['a', '\n', '+']).take
        ((runes ['a', '\n', '+']).length - ([] : List Item).length)) :=
  ⟨by decide, by decide,
    (line_counts_consumed_newlines latin1Only (runes ['a', '\n', '+']) 2
      ⟨⟨[], some (.valid '+')⟩, 2, 2⟩ (by decide) (by decide)).2.1⟩

/-- C19 (counterexample): an input of 2^32 - 1 newlines has fewer than 2^32 newlines; Line
is 1 before the first call and 0 after it, where all newlines are consumed. -/
theorem line_wraps_to_zero :
    newlines (List.replicate 4294967295 (Item.valid '\n')) < 4294967296
    ∧ afterCalls latin1Only 0 (NewScanner (List.replicate 4294967295 (Item.valid '\n')))
        = some ⟨⟨List.replicate 4294967295 (Item.valid '\n'), none⟩, 1, 0⟩
    ∧ afterCalls latin1Only 1 (NewScanner (List.replicate 4294967295 (Item.valid '\n')))
        = some ⟨⟨[], none⟩, 0, 1⟩ := by
  have hn : newlines (List.replicate 4294967295 (Item.valid '\n')) = 4294967295 :=
    List.count_replicate_self _ _
  have hb : ∀ x ∈ List.replicate 4294967295 (Item.valid '\n'), isBlank x = true := by
    intro x hx
    rw [List.eq_of_mem_replicate hx]
    rfl
  refine ⟨by rw [hn]; decide, rfl, ?_⟩
  rw [afterCalls, NewScanner, scan_blanks latin1Only _ hb, Scanner.lineAfter_eq _ 1 (by decide),
    hn, colBlanks_replicate_newline 4294967294 0]
  rfl

/-- C20 (code at the failing input): after the first `Scan` on the seven runes quote, `a`,
newline, `b`, `c`, quote, `;` the string literal is consumed and Column is 6, although three
runes were consumed since the newline; on the same runes without the quotes, Column is 3
after the two calls that consume `a`, the newline, `b` and `c`. -/
theorem column_not_reset_inside_string :
    afterCalls latin1Only 1 (NewScanner (runes [quote, 'a', '\n', 'b', 'c', quote, ';']))
        = some ⟨⟨runes [';'], some (.valid quote)⟩, 2, 6⟩
    ∧ afterCalls latin1Only 2 (NewScanner (runes ['a', '\n', 'b', 'c', ';']))
        = some ⟨⟨runes [';'], none⟩, 2, 3⟩ := by
  decide

/-! ## Instances on concrete inputs -/

/-- C11 on `forest`: the keyword `for` followed by `est` is one identifier. -/
theorem scan_keyword_then_more_witness :
    matchLexemeToKeyword.lookup ['f', 'o', 'r'] = some TokenType.For
    ∧ Scanner.Scan latin1Only (NewScanner (runes ['f', 'o', 'r', 'e', 's', 't']))
      = .ret (some ⟨.Identifier, ['f', 'o', 'r', 'e', 's', 't'], 1, none⟩) none
          ⟨⟨[], none⟩, 1, 6⟩ :=
  ⟨by decide,
    scan_keyword_then_more latin1Only ['f', 'o', 'r'] .For ['e', 's', 't'] [] none 1 0
      (by decide) (by decide) (by decide) (fun x hx => by cases hx)⟩

/-- C12 on `@+`: the call reports `@` at column 1 and leaves `+` pending. -/
theorem scan_unexpected_symbol_witness :
    Scanner.Scan latin1Only (NewScanner (runes ['@', '+']))
      = .ret none (some (.Scanner ⟨1, 1, "unexpected symbol: @".toList⟩))
          ⟨⟨runes ['+'], some (.valid '@')⟩, 1, 1⟩ :=
  (scan_unexpected_symbol latin1Only '@' (runes ['+']) none 1 0
    (by unfold unrecognized; decide)).1

/-- C13 on a space, a newline, a tab and a newline: end of input on line 3. -/
theorem scan_whitespace_only_witness :
    Scanner.Scan latin1Only (NewScanner (runes [' ', '\n', '\t', '\n']))
      = .ret (some Token.zero) (some .EOF) ⟨⟨[], none⟩, 3, 1⟩ :=
  (scan_whitespace_only latin1Only (runes [' ', '\n', '\t', '\n']) (by decide)).1

/-- C15 on the string literal `"a"`: the token is a `String` and holds a value. -/
theorem returned_token_fields_witness :
    Scanner.Scan latin1Only (NewScanner (runes [quote, 'a', quote]))
      = .ret (some ⟨.String, [], 1, some (.str ['a'])⟩) none
          ⟨⟨[], some (.valid quote)⟩, 1, 3⟩
    ∧ ((⟨.String, [], 1, some (.str ['a'])⟩ : Token).Value ≠ none
        ↔ (⟨.String, [], 1, some (.str ['a'])⟩ : Token).Typ = .String
          ∨ (⟨.String, [], 1, some (.str ['a'])⟩ : Token).Typ = .Number) :=
  ⟨by decide,
    (returned_token_fields latin1Only (NewScanner (runes [quote, 'a', quote]))
      ⟨⟨[], some (.valid quote)⟩, 1, 3⟩ ⟨.String, [], 1, some (.str ['a'])⟩ (by decide)).1⟩

/-- C16 on a space followed by `@`: the call returns the error of an unexpected symbol. -/
theorem scanner_error_iff_witness :
    Scanner.Scan latin1Only (NewScanner (runes [' ', '@']))
      = .ret none (some (.Scanner ⟨1, 2, "unexpected symbol: @".toList⟩))
          ⟨⟨[], some (.valid '@')⟩, 1, 2⟩ :=
  (scanner_error_iff latin1Only (runes [' ', '@']) none 1 0).2.1 (.valid '@') [] rfl
    (by unfold unrecognized; decide)

/-- C18 on `x1_ y`: the identifier `x1_` is returned and the space stays pending. -/
theorem scan_identifier_witness :
    IsLetter latin1Only 'x' = true
    ∧ Scanner.Scan latin1Only (NewScanner (runes ['x', '1', '_', ' ', 'y']))
      = .ret (some ⟨.Identifier, ['x', '1', '_'], 1, none⟩) none
          ⟨⟨runes [' ', 'y'], none⟩, 1, 3⟩ :=
  ⟨by decide,
    (scan_identifier latin1Only 'x' (runes ['1', '_', ' ', 'y']) none 1 0 (by decide)
      (by decide)).2.2.2.2 (by decide)⟩

/-! ## String literals with 2^32 - 1 newlines -/

namespace Scanner

/-- `Scan` on a string literal whose text `s` holds no quote and that is closed. -/
theorem scan_closed_string (U : UnicodeTables) (s rest : List Item) (l : Option Item)
    (line col : Nat) (hs : Item.valid quote ∉ s) :
    Scan U ⟨⟨Item.valid quote :: (s ++ Item.valid quote :: rest), l⟩, line, col⟩
      = .ret (some ⟨.String, [], lineAfter line s, some (.str (s.map Item.r))⟩) none
          ⟨⟨rest, some (.valid quote)⟩, lineAfter line s,
            colAdvance (.valid quote) (colAfter ((col + 1) % u32) s)⟩ := by
  rw [scan_quote, matchStringLiteral,
    stringLoop_closed s rest hs _ _ _ _ _
      (by simp only [List.length_append, List.length_cons]; omega),
    List.nil_append]

/-- `Scan` on a string literal whose text `s` holds no quote and that is not closed. -/
theorem scan_open_string (U : UnicodeTables) (s : List Item) (l : Option Item)
    (line col : Nat) (hs : Item.valid quote ∉ s) :
    Scan U ⟨⟨Item.valid quote :: s, l⟩, line, col⟩
      = .ret none
          (some (.Scanner ⟨lineAfter line s, colAfter ((col + 1) % u32) s,
            "unterminated string".toList⟩))
          ⟨⟨[], none⟩, lineAfter line s, colAfter ((col + 1) % u32) s⟩ := by
  rw [scan_quote, matchStringLiteral, stringLoop_open s hs _ _ _ _ _ (Nat.lt_succ_self _)]

end Scanner

/-- No quote among the runes of a run of newlines. -/
theorem quote_not_mem_newlines (n : Nat) : Item.valid quote ∉ runes (List.replicate n '\n') := by
  rw [valid_mem_runes]
  intro h
  exact absurd (List.eq_of_mem_replicate h) (by decide)

/-- Line after 2^32 - 1 newlines, starting from line 1. -/
theorem lineAfter_newlines_wrap :
    lineAfter 1 (runes (List.replicate 4294967295 '\n')) = 0 := by
  rw [Scanner.lineAfter_eq _ 1 (by decide), newlines_runes, List.count_replicate_self]
  decide

/-- Column after 2^32 - 1 newlines read inside a string literal, starting from column 1. -/
theorem colAfter_newlines_wrap :
    colAfter ((0 + 1) % u32) (runes (List.replicate 4294967295 '\n')) = 0 := by
  have h := colAfter_runes_mod (List.replicate 4294967295 '\n') (0 + 1)
  rw [List.length_replicate] at h
  exact h

/-- C7 (counterexample): on a new scanner, the string literal that holds 2^32 - 1 newlines
gives a `String` token and leaves `Line` at 0: `Line` went from 1 to 0 and was not increased
by the 2^32 - 1 newlines of the text. -/
theorem string_literal_line_wraps :
    Scanner.Scan latin1Only
        (NewScanner (Item.valid quote ::
          (runes (List.replicate 4294967295 '\n') ++ Item.valid quote :: [])))
      = .ret (some ⟨.String, [], 0, some (.str (List.replicate 4294967295 '\n'))⟩) none
          ⟨⟨[], some (.valid quote)⟩, 0, 1⟩
    ∧ (NewScanner (Item.valid quote ::
          (runes (List.replicate 4294967295 '\n') ++ Item.valid quote :: []))).Line = 1
    ∧ (List.replicate 4294967295 '\n').count '\n' = 4294967295 := by
  have h2 : colAdvance (.valid quote) 0 = 1 := by decide
  refine ⟨?_, rfl, List.count_replicate_self _ _⟩
  rw [NewScanner, Scanner.scan_closed_string latin1Only _ [] none 1 0
      (quote_not_mem_newlines 4294967295),
    lineAfter_newlines_wrap, colAfter_newlines_wrap, map_r_runes, h2]

/-- C8 (counterexample): on a new scanner, the unterminated string literal that holds
2^32 - 1 newlines gives the error `unterminated string` on line 0, while the starting line
plus the number of newlines of the text is 2^32. -/
theorem unterminated_string_line_wraps :
    Scanner.Scan latin1Only
        (NewScanner (Item.valid quote :: runes (List.replicate 4294967295 '\n')))
      = .ret none (some (.Scanner ⟨0, 0, "unterminated string".toList⟩)) ⟨⟨[], none⟩, 0, 0⟩
    ∧ (NewScanner (Item.valid quote :: runes (List.replicate 4294967295 '\n'))).Line
        + (List.replicate 4294967295 '\n').count '\n' = 4294967296 := by
  refine ⟨?_, by rw [List.count_replicate_self]; rfl⟩
  rw [NewScanner, Scanner.scan_open_string latin1Only _ none 1 0
      (quote_not_mem_newlines 4294967295),
    lineAfter_newlines_wrap, colAfter_newlines_wrap]

end Golox
